import Mathlib

/-!
Shallow embedding of the HTTP request-line/header parser (src/parse.cpp).

Bytes are modelled as `Char` (the source works on `char` of a `std::string`);
the byte buffer is a `List Char` plus an explicit usable length `len`, and
`data[i]` is modelled as `List.getD i` with a null default — every source read
is guarded by an index-below-`len` test exactly as in the C++.

The C++ `parse` mutates a caller-supplied `Request&` and returns a
`ParseResult`; we model it as a function returning the pair
`ParseResult × Request`, threading the record through every step so that
partial mutation on error paths is preserved faithfully.
-/

namespace HttpParse

def SPACE : Char := ' '

def CR : Char := '\r'

def LF : Char := '\n'

/-- The two-byte line terminator `"\r\n"` (source constant `CRLF`). -/
def CRLF : List Char := ['\r', '\n']

def max_method_len : Nat := 32

def max_url_len : Nat := 1024

def max_version_len : Nat := 32

/-- Source enum `ParseResult`. -/
inductive ParseResult where
  | success
  | method_too_long
  | url_too_long
  | version_too_long
  | invalid_method
  | invalid_url
  | invalid_version
  | invalid_format
  | invalid_headers
  | invalid_crlf
deriving DecidableEq, Repr

/-- Source struct `Request`; the `std::map` is modelled as an association
list whose insertion (`emplace`) is insert-if-absent, so lookups agree with
the map's semantics. -/
structure Request where
  method : List Char
  url : List Char
  version : List Char
  headers : List (List Char × List Char)
deriving DecidableEq, Repr

/-- A freshly default-constructed `Request` (as in the source `main`). -/
def Request.empty : Request := ⟨[], [], [], []⟩

/-- Source enum `Parser::State`. -/
inductive State where
  | method
  | url
  | version
  | headers
deriving DecidableEq, Repr

/-- Models `std::map::emplace`: insert the pair only when the key is absent. -/
def emplace (k v : List Char) (m : List (List Char × List Char)) :
    List (List Char × List Char) :=
  match m.lookup k with
  | some _ => m
  | none => m ++ [(k, v)]

/-- Folding `emplace` over a list of key/value pairs in order (the effect of
the `split_headers` loop on the header map). -/
def emplaceAll (pairs : List (List Char × List Char))
    (m : List (List Char × List Char)) : List (List Char × List Char) :=
  pairs.foldl (fun acc p => emplace p.1 p.2 acc) m

/-- Models `std::string::find` for a substring: index of the leftmost occurrence of
`pat`, `none` standing for `npos`. -/
def findSub (pat : List Char) : List Char → Option Nat
  | [] => none
  | c :: rest =>
    if pat.isPrefixOf (c :: rest) then some 0
    else (findSub pat rest).map (fun n => n + 1)

/-- The header key/value separator `": "` (source literal in `split_headers`). -/
def headerSep : List Char := [':', ' ']

/-- Source `Parser::string_split` at its single call site (delimiter `CRLF`): split
the accumulated header text at every leftmost `"\r\n"`, keeping empty pieces,
exactly as the source's `find`/`substr` loop does. Written as a left-to-right
scan so that it is structurally recursive (hence kernel-evaluable); the
lemmas `string_split_no_cr` and `string_split_append_crlf` recover the
source's find-leftmost-occurrence reading. -/
def string_split : List Char → List (List Char)
  | [] => [[]]
  | '\r' :: '\n' :: rest => [] :: string_split rest
  | c :: rest =>
    match string_split rest with
    | [] => [[c]]
    | t :: ts => (c :: t) :: ts

/-- The loop body of `Parser::split_headers`: for each token, locate `": "`,
fail when absent, otherwise emplace key/value (the record built so far is
kept on failure, as in the source where `req` is mutated in place). -/
def splitHeadersGo : List (List Char) → Request → Bool × Request
  | [], req => (true, req)
  | t :: ts, req =>
    match findSub headerSep t with
    | none => (false, req)
    | some idx =>
      splitHeadersGo ts
        { req with headers := emplace (t.take idx) (t.drop (idx + 2)) req.headers }

/-- Source `Parser::split_headers`. -/
def split_headers (s : List Char) (req : Request) : Bool × Request :=
  splitHeadersGo (string_split s) req

/-- The tail of `Parser::parse` after the byte loop: run `split_headers` on
the accumulated header text; failure is `invalid_headers`, otherwise
`success`. -/
def parseFinish (hacc : List Char) (req : Request) : ParseResult × Request :=
  match split_headers hacc req with
  | (false, req2) => (ParseResult.invalid_headers, req2)
  | (true, req2) => (ParseResult.success, req2)

/-- The `while (i < len && !stop)` loop of `Parser::parse`, with the loop
variables (`i`, `state`, the accumulated raw header text, `req`) explicit.
`stop = true` (the blank-line terminator) exits the loop and falls through to
`split_headers`, modelled by calling `parseFinish` directly. -/
def parseLoop (data : List Char) (len : Nat) (i : Nat) (st : State)
    (hacc : List Char) (req : Request) : ParseResult × Request :=
  if hlt : i < len then
    let c := data.getD i (Char.ofNat 0)
    match st with
    | State.method =>
      if c = SPACE then
        if req.method = [] then (ParseResult.invalid_method, req)
        else parseLoop data len (i + 1) State.url hacc req
      else if c = CR ∨ c = LF then
        (ParseResult.invalid_format, req)
      else if req.method.length = max_method_len then
        (ParseResult.method_too_long, req)
      else
        parseLoop data len (i + 1) State.method hacc
          { req with method := req.method ++ [c] }
    | State.url =>
      if c = SPACE then
        if req.url = [] then (ParseResult.invalid_url, req)
        else parseLoop data len (i + 1) State.version hacc req
      else if c = CR ∨ c = LF then
        (ParseResult.invalid_format, req)
      else if req.url.length = max_url_len then
        (ParseResult.url_too_long, req)
      else
        parseLoop data len (i + 1) State.url hacc
          { req with url := req.url ++ [c] }
    | State.version =>
      if c = CR then
        if req.version = [] then (ParseResult.invalid_format, req)
        else if i + 1 ≥ len then (ParseResult.invalid_format, req)
        else if data.getD (i + 1) (Char.ofNat 0) ≠ LF then
          (ParseResult.invalid_crlf, req)
        else parseLoop data len (i + 2) State.headers hacc req
      else if req.version.length = max_version_len then
        (ParseResult.version_too_long, req)
      else
        parseLoop data len (i + 1) State.version hacc
          { req with version := req.version ++ [c] }
    | State.headers =>
      if c = CR then
        if i + 1 ≥ len ∨ data.getD (i + 1) (Char.ofNat 0) ≠ LF then
          (ParseResult.invalid_format, req)
        else if i + 2 < len ∧ data.getD (i + 2) (Char.ofNat 0) = CR ∧
            i + 3 < len ∧ data.getD (i + 3) (Char.ofNat 0) = LF then
          parseFinish hacc req
        else
          parseLoop data len (i + 2) State.headers (hacc ++ CRLF) req
      else if c = LF then
        (ParseResult.invalid_headers, req)
      else
        parseLoop data len (i + 1) State.headers (hacc ++ [c]) req
  else
    parseFinish hacc req
termination_by len - i
decreasing_by all_goals omega

/-- Source `Parser::parse(data, len, req)`. -/
def parse (data : List Char) (len : Nat) (req : Request) :
    ParseResult × Request :=
  parseLoop data len 0 State.method [] req

/-- The first `len` bytes the C++ loop can observe: the buffer truncated at
`len`, padded with null bytes when `len` exceeds the buffer (matching the
`getD` default; under the caller contract `len ≤ data.length` no padding
occurs). -/
def padTo (data : List Char) (len : Nat) : List Char :=
  data.take len ++ List.replicate (len - data.length) (Char.ofNat 0)

/-- Structurally recursive mirror of `parseLoop` that consumes the remaining
in-bounds bytes as a list; `parseLoop_eq_parseList` proves it equal to the
indexed loop on `padTo data len`. Being structural, it is evaluable by the
kernel, which the indexed well-founded definition is not. -/
def parseList : List Char → State → List Char → Request → ParseResult × Request
  | [], _, hacc, req => parseFinish hacc req
  | c :: rest, State.method, hacc, req =>
    if c = SPACE then
      if req.method = [] then (ParseResult.invalid_method, req)
      else parseList rest State.url hacc req
    else if c = CR ∨ c = LF then
      (ParseResult.invalid_format, req)
    else if req.method.length = max_method_len then
      (ParseResult.method_too_long, req)
    else
      parseList rest State.method hacc { req with method := req.method ++ [c] }
  | c :: rest, State.url, hacc, req =>
    if c = SPACE then
      if req.url = [] then (ParseResult.invalid_url, req)
      else parseList rest State.version hacc req
    else if c = CR ∨ c = LF then
      (ParseResult.invalid_format, req)
    else if req.url.length = max_url_len then
      (ParseResult.url_too_long, req)
    else
      parseList rest State.url hacc { req with url := req.url ++ [c] }
  | c :: rest, State.version, hacc, req =>
    if c = CR then
      if req.version = [] then (ParseResult.invalid_format, req)
      else
        match rest with
        | [] => (ParseResult.invalid_format, req)
        | c2 :: rest2 =>
          if c2 ≠ LF then (ParseResult.invalid_crlf, req)
          else parseList rest2 State.headers hacc req
    else if req.version.length = max_version_len then
      (ParseResult.version_too_long, req)
    else
      parseList rest State.version hacc { req with version := req.version ++ [c] }
  | c :: rest, State.headers, hacc, req =>
    if c = CR then
      match rest with
      | [] => (ParseResult.invalid_format, req)
      | c2 :: rest2 =>
        if c2 ≠ LF then (ParseResult.invalid_format, req)
        else
          match rest2 with
          | c3 :: c4 :: _ =>
            if c3 = CR ∧ c4 = LF then parseFinish hacc req
            else parseList rest2 State.headers (hacc ++ CRLF) req
          | _ => parseList rest2 State.headers (hacc ++ CRLF) req
    else if c = LF then
      (ParseResult.invalid_headers, req)
    else
      parseList rest State.headers (hacc ++ [c]) req

theorem parseList_nil (st : State) (hacc : List Char) (req : Request) :
    parseList [] st hacc req = parseFinish hacc req := by
  rw [parseList.eq_def]

theorem parseList_cons_method (c : Char) (rest hacc : List Char) (req : Request) :
    parseList (c :: rest) State.method hacc req =
      (if c = SPACE then
        if req.method = [] then (ParseResult.invalid_method, req)
        else parseList rest State.url hacc req
      else if c = CR ∨ c = LF then
        (ParseResult.invalid_format, req)
      else if req.method.length = max_method_len then
        (ParseResult.method_too_long, req)
      else
        parseList rest State.method hacc
          { req with method := req.method ++ [c] }) := by
  rw [parseList.eq_def]

theorem parseList_cons_url (c : Char) (rest hacc : List Char) (req : Request) :
    parseList (c :: rest) State.url hacc req =
      (if c = SPACE then
        if req.url = [] then (ParseResult.invalid_url, req)
        else parseList rest State.version hacc req
      else if c = CR ∨ c = LF then
        (ParseResult.invalid_format, req)
      else if req.url.length = max_url_len then
        (ParseResult.url_too_long, req)
      else
        parseList rest State.url hacc { req with url := req.url ++ [c] }) := by
  rw [parseList.eq_def]

theorem parseList_version_one (c : Char) (hacc : List Char) (req : Request) :
    parseList [c] State.version hacc req =
      (if c = CR then
        if req.version = [] then (ParseResult.invalid_format, req)
        else (ParseResult.invalid_format, req)
      else if req.version.length = max_version_len then
        (ParseResult.version_too_long, req)
      else
        parseList [] State.version hacc
          { req with version := req.version ++ [c] }) := by
  rw [parseList.eq_def]

theorem parseList_version_two (c c2 : Char) (rest2 hacc : List Char)
    (req : Request) :
    parseList (c :: c2 :: rest2) State.version hacc req =
      (if c = CR then
        if req.version = [] then (ParseResult.invalid_format, req)
        else if c2 ≠ LF then (ParseResult.invalid_crlf, req)
        else parseList rest2 State.headers hacc req
      else if req.version.length = max_version_len then
        (ParseResult.version_too_long, req)
      else
        parseList (c2 :: rest2) State.version hacc
          { req with version := req.version ++ [c] }) := by
  rw [parseList.eq_def]

theorem parseList_cons_headers (c : Char) (rest hacc : List Char)
    (req : Request) :
    parseList (c :: rest) State.headers hacc req =
      (if c = CR then
        match rest with
        | [] => (ParseResult.invalid_format, req)
        | c2 :: rest2 =>
          if c2 ≠ LF then (ParseResult.invalid_format, req)
          else
            match rest2 with
            | c3 :: c4 :: _ =>
              if c3 = CR ∧ c4 = LF then parseFinish hacc req
              else parseList rest2 State.headers (hacc ++ CRLF) req
            | _ => parseList rest2 State.headers (hacc ++ CRLF) req
      else if c = LF then
        (ParseResult.invalid_headers, req)
      else
        parseList rest State.headers (hacc ++ [c]) req) := by
  rw [parseList.eq_def]

theorem parseList_headers_one (c : Char) (hacc : List Char) (req : Request) :
    parseList [c] State.headers hacc req =
      (if c = CR then (ParseResult.invalid_format, req)
      else if c = LF then (ParseResult.invalid_headers, req)
      else parseList [] State.headers (hacc ++ [c]) req) := by
  rw [parseList.eq_def]

theorem parseList_headers_two (c c2 : Char) (hacc : List Char)
    (req : Request) :
    parseList [c, c2] State.headers hacc req =
      (if c = CR then
        if c2 ≠ LF then (ParseResult.invalid_format, req)
        else parseList [] State.headers (hacc ++ CRLF) req
      else if c = LF then (ParseResult.invalid_headers, req)
      else parseList [c2] State.headers (hacc ++ [c]) req) := by
  rw [parseList.eq_def]

theorem parseList_headers_three (c c2 c3 : Char) (hacc : List Char)
    (req : Request) :
    parseList [c, c2, c3] State.headers hacc req =
      (if c = CR then
        if c2 ≠ LF then (ParseResult.invalid_format, req)
        else parseList [c3] State.headers (hacc ++ CRLF) req
      else if c = LF then (ParseResult.invalid_headers, req)
      else parseList [c2, c3] State.headers (hacc ++ [c]) req) := by
  rw [parseList.eq_def]

theorem parseList_headers_four (c c2 c3 c4 : Char) (rest4 hacc : List Char)
    (req : Request) :
    parseList (c :: c2 :: c3 :: c4 :: rest4) State.headers hacc req =
      (if c = CR then
        if c2 ≠ LF then (ParseResult.invalid_format, req)
        else if c3 = CR ∧ c4 = LF then parseFinish hacc req
        else parseList (c3 :: c4 :: rest4) State.headers (hacc ++ CRLF) req
      else if c = LF then (ParseResult.invalid_headers, req)
      else
        parseList (c2 :: c3 :: c4 :: rest4) State.headers (hacc ++ [c]) req) := by
  rw [parseList.eq_def]

theorem parseLoop_done (data : List Char) (len i : Nat) (st : State)
    (hacc : List Char) (req : Request) (h : ¬ i < len) :
    parseLoop data len i st hacc req = parseFinish hacc req := by
  rw [parseLoop, dif_neg h]

theorem parseLoop_method (data : List Char) (len i : Nat)
    (hacc : List Char) (req : Request) (h : i < len) :
    parseLoop data len i State.method hacc req =
      (if data.getD i (Char.ofNat 0) = SPACE then
        if req.method = [] then (ParseResult.invalid_method, req)
        else parseLoop data len (i + 1) State.url hacc req
      else if data.getD i (Char.ofNat 0) = CR ∨
          data.getD i (Char.ofNat 0) = LF then
        (ParseResult.invalid_format, req)
      else if req.method.length = max_method_len then
        (ParseResult.method_too_long, req)
      else
        parseLoop data len (i + 1) State.method hacc
          { req with method := req.method ++ [data.getD i (Char.ofNat 0)] }) := by
  rw [parseLoop, dif_pos h]

theorem parseLoop_url (data : List Char) (len i : Nat)
    (hacc : List Char) (req : Request) (h : i < len) :
    parseLoop data len i State.url hacc req =
      (if data.getD i (Char.ofNat 0) = SPACE then
        if req.url = [] then (ParseResult.invalid_url, req)
        else parseLoop data len (i + 1) State.version hacc req
      else if data.getD i (Char.ofNat 0) = CR ∨
          data.getD i (Char.ofNat 0) = LF then
        (ParseResult.invalid_format, req)
      else if req.url.length = max_url_len then
        (ParseResult.url_too_long, req)
      else
        parseLoop data len (i + 1) State.url hacc
          { req with url := req.url ++ [data.getD i (Char.ofNat 0)] }) := by
  rw [parseLoop, dif_pos h]

theorem parseLoop_version (data : List Char) (len i : Nat)
    (hacc : List Char) (req : Request) (h : i < len) :
    parseLoop data len i State.version hacc req =
      (if data.getD i (Char.ofNat 0) = CR then
        if req.version = [] then (ParseResult.invalid_format, req)
        else if i + 1 ≥ len then (ParseResult.invalid_format, req)
        else if data.getD (i + 1) (Char.ofNat 0) ≠ LF then
          (ParseResult.invalid_crlf, req)
        else parseLoop data len (i + 2) State.headers hacc req
      else if req.version.length = max_version_len then
        (ParseResult.version_too_long, req)
      else
        parseLoop data len (i + 1) State.version hacc
          { req with version := req.version ++ [data.getD i (Char.ofNat 0)] }) := by
  rw [parseLoop, dif_pos h]

theorem parseLoop_headers (data : List Char) (len i : Nat)
    (hacc : List Char) (req : Request) (h : i < len) :
    parseLoop data len i State.headers hacc req =
      (if data.getD i (Char.ofNat 0) = CR then
        if i + 1 ≥ len ∨ data.getD (i + 1) (Char.ofNat 0) ≠ LF then
          (ParseResult.invalid_format, req)
        else if i + 2 < len ∧ data.getD (i + 2) (Char.ofNat 0) = CR ∧
            i + 3 < len ∧ data.getD (i + 3) (Char.ofNat 0) = LF then
          parseFinish hacc req
        else
          parseLoop data len (i + 2) State.headers (hacc ++ CRLF) req
      else if data.getD i (Char.ofNat 0) = LF then
        (ParseResult.invalid_headers, req)
      else
        parseLoop data len (i + 1) State.headers
          (hacc ++ [data.getD i (Char.ofNat 0)]) req) := by
  rw [parseLoop, dif_pos h]

theorem padTo_length (data : List Char) (len : Nat) :
    (padTo data len).length = len := by
  simp [padTo]
  omega

theorem padTo_getD (data : List Char) (len i : Nat) (h : i < len) :
    (padTo data len).getD i (Char.ofNat 0) = data.getD i (Char.ofNat 0) := by
  unfold padTo
  by_cases hi : i < data.length
  · have ht : i < (data.take len).length := by rw [List.length_take]; omega
    have happ :
        i < (data.take len ++
          List.replicate (len - data.length) (Char.ofNat 0)).length := by
      simp [List.length_take]
      omega
    rw [List.getD_eq_getElem _ _ happ, List.getD_eq_getElem _ _ hi,
      List.getElem_append_left ht, List.getElem_take]
  · have ht : (data.take len).length ≤ i := by rw [List.length_take]; omega
    have happ :
        i < (data.take len ++
          List.replicate (len - data.length) (Char.ofNat 0)).length := by
      simp [List.length_take]
      omega
    rw [List.getD_eq_getElem _ _ happ, List.getD_eq_default _ _ (by omega),
      List.getElem_append_right ht, List.getElem_replicate]

theorem padTo_drop_cons (data : List Char) (len i : Nat) (h : i < len) :
    (padTo data len).drop i =
      data.getD i (Char.ofNat 0) :: (padTo data len).drop (i + 1) := by
  have hlen : i < (padTo data len).length := by rw [padTo_length]; exact h
  rw [List.drop_eq_getElem_cons hlen,
    ← List.getD_eq_getElem (padTo data len) (Char.ofNat 0) hlen,
    padTo_getD data len i h]

theorem padTo_drop_nil (data : List Char) (len i : Nat) (h : len ≤ i) :
    (padTo data len).drop i = [] :=
  List.drop_eq_nil_of_le (by rw [padTo_length]; exact h)

theorem parseLoop_eq_parseList (data : List Char) (len : Nat) :
    ∀ fuel i st hacc req, len - i ≤ fuel →
      parseLoop data len i st hacc req =
        parseList ((padTo data len).drop i) st hacc req := by
  intro fuel
  induction fuel with
  | zero =>
    intro i st hacc req hf
    rw [parseLoop_done data len i st hacc req (by omega),
      padTo_drop_nil data len i (by omega), parseList_nil]
  | succ n ih =>
    intro i st hacc req hf
    by_cases hlt : i < len
    · cases st with
      | method =>
        rw [parseLoop_method data len i hacc req hlt,
          padTo_drop_cons data len i hlt, parseList_cons_method]
        split_ifs <;> first | exact ih _ _ _ _ (by omega) | rfl
      | url =>
        rw [parseLoop_url data len i hacc req hlt,
          padTo_drop_cons data len i hlt, parseList_cons_url]
        split_ifs <;> first | exact ih _ _ _ _ (by omega) | rfl
      | version =>
        rw [parseLoop_version data len i hacc req hlt,
          padTo_drop_cons data len i hlt]
        by_cases hi1 : i + 1 < len
        · rw [padTo_drop_cons data len (i + 1) hi1, parseList_version_two]
          by_cases hc : data.getD i (Char.ofNat 0) = CR
          · rw [if_pos hc, if_pos hc]
            by_cases hv : req.version = []
            · rw [if_pos hv, if_pos hv]
            · rw [if_neg hv, if_neg hv, if_neg (by omega : ¬ i + 1 ≥ len)]
              by_cases hLF : data.getD (i + 1) (Char.ofNat 0) = LF
              · rw [if_neg (by simpa using hLF), if_neg (by simpa using hLF)]
                exact ih _ _ _ _ (by omega)
              · rw [if_pos hLF, if_pos hLF]
          · rw [if_neg hc, if_neg hc]
            by_cases hl : req.version.length = max_version_len
            · rw [if_pos hl, if_pos hl]
            · rw [if_neg hl, if_neg hl,
                ← padTo_drop_cons data len (i + 1) hi1]
              exact ih _ _ _ _ (by omega)
        · rw [padTo_drop_nil data len (i + 1) (by omega),
            parseList_version_one]
          by_cases hc : data.getD i (Char.ofNat 0) = CR
          · rw [if_pos hc, if_pos hc]
            by_cases hv : req.version = []
            · rw [if_pos hv, if_pos hv]
            · rw [if_neg hv, if_neg hv, if_pos (by omega : i + 1 ≥ len)]
          · rw [if_neg hc, if_neg hc]
            by_cases hl : req.version.length = max_version_len
            · rw [if_pos hl, if_pos hl]
            · rw [if_neg hl, if_neg hl,
                ← padTo_drop_nil data len (i + 1) (by omega)]
              exact ih _ _ _ _ (by omega)
      | headers =>
        rw [parseLoop_headers data len i hacc req hlt,
          padTo_drop_cons data len i hlt]
        by_cases hc : data.getD i (Char.ofNat 0) = CR
        · by_cases hi1 : i + 1 < len
          · by_cases hi2 : i + 2 < len
            · by_cases hi3 : i + 3 < len
              · rw [padTo_drop_cons data len (i + 1) hi1,
                  padTo_drop_cons data len (i + 2) hi2,
                  padTo_drop_cons data len (i + 3) hi3,
                  parseList_headers_four, if_pos hc, if_pos hc]
                by_cases hLF : data.getD (i + 1) (Char.ofNat 0) = LF
                · have hok :
                      ¬ (i + 1 ≥ len ∨
                        data.getD (i + 1) (Char.ofNat 0) ≠ LF) := by
                    push_neg
                    exact ⟨by omega, hLF⟩
                  have hnn : ¬ data.getD (i + 1) (Char.ofNat 0) ≠ LF := by
                    simpa using hLF
                  rw [if_neg hok, if_neg hnn]
                  by_cases hstop : data.getD (i + 2) (Char.ofNat 0) = CR ∧
                      data.getD (i + 3) (Char.ofNat 0) = LF
                  · rw [if_pos ⟨hi2, hstop.1, hi3, hstop.2⟩, if_pos hstop]
                  · rw [if_neg (by tauto :
                        ¬ (i + 2 < len ∧
                          data.getD (i + 2) (Char.ofNat 0) = CR ∧
                          i + 3 < len ∧
                          data.getD (i + 3) (Char.ofNat 0) = LF)),
                      if_neg hstop,
                      ← padTo_drop_cons data len (i + 3) hi3,
                      ← padTo_drop_cons data len (i + 2) hi2]
                    exact ih _ _ _ _ (by omega)
                · rw [if_pos (Or.inr hLF), if_pos hLF]
              · rw [padTo_drop_cons data len (i + 1) hi1,
                  padTo_drop_cons data len (i + 2) hi2,
                  padTo_drop_nil data len (i + 3) (by omega),
                  parseList_headers_three, if_pos hc, if_pos hc]
                by_cases hLF : data.getD (i + 1) (Char.ofNat 0) = LF
                · have hok :
                      ¬ (i + 1 ≥ len ∨
                        data.getD (i + 1) (Char.ofNat 0) ≠ LF) := by
                    push_neg
                    exact ⟨by omega, hLF⟩
                  have hnn : ¬ data.getD (i + 1) (Char.ofNat 0) ≠ LF := by
                    simpa using hLF
                  rw [if_neg hok, if_neg hnn,
                    if_neg (by tauto :
                      ¬ (i + 2 < len ∧
                        data.getD (i + 2) (Char.ofNat 0) = CR ∧
                        i + 3 < len ∧
                        data.getD (i + 3) (Char.ofNat 0) = LF))]
                  have hd2 : (padTo data len).drop (i + 2) =
                      [data.getD (i + 2) (Char.ofNat 0)] := by
                    rw [padTo_drop_cons data len (i + 2) hi2,
                      padTo_drop_nil data len (i + 3) (by omega)]
                  rw [← hd2]
                  exact ih _ _ _ _ (by omega)
                · rw [if_pos (Or.inr hLF), if_pos hLF]
            · rw [padTo_drop_cons data len (i + 1) hi1,
                padTo_drop_nil data len (i + 2) (by omega),
                parseList_headers_two, if_pos hc, if_pos hc]
              by_cases hLF : data.getD (i + 1) (Char.ofNat 0) = LF
              · have hok :
                    ¬ (i + 1 ≥ len ∨
                      data.getD (i + 1) (Char.ofNat 0) ≠ LF) := by
                  push_neg
                  exact ⟨by omega, hLF⟩
                have hnn : ¬ data.getD (i + 1) (Char.ofNat 0) ≠ LF := by
                  simpa using hLF
                rw [if_neg hok, if_neg hnn,
                  if_neg (by tauto :
                    ¬ (i + 2 < len ∧
                      data.getD (i + 2) (Char.ofNat 0) = CR ∧
                      i + 3 < len ∧
                      data.getD (i + 3) (Char.ofNat 0) = LF)),
                  ← padTo_drop_nil data len (i + 2) (by omega)]
                exact ih _ _ _ _ (by omega)
              · rw [if_pos (Or.inr hLF), if_pos hLF]
          · rw [padTo_drop_nil data len (i + 1) (by omega),
              parseList_headers_one, if_pos hc, if_pos hc,
              if_pos (Or.inl (by omega : i + 1 ≥ len))]
        · rw [if_neg hc, parseList_cons_headers, if_neg hc]
          by_cases hLF2 : data.getD i (Char.ofNat 0) = LF
          · rw [if_pos hLF2, if_pos hLF2]
          · rw [if_neg hLF2, if_neg hLF2]
            exact ih _ _ _ _ (by omega)
    · rw [parseLoop_done data len i st hacc req hlt,
        padTo_drop_nil data len i (by omega), parseList_nil]


theorem parse_eq_parseList (data : List Char) (len : Nat) (req : Request) :
    parse data len req = parseList (padTo data len) State.method [] req := by
  have h := parseLoop_eq_parseList data len len 0 State.method [] req (by omega)
  simpa [parse] using h

theorem padTo_full (data : List Char) : padTo data data.length = data := by
  simp [padTo]

theorem parse_eq_full (data : List Char) (req : Request) :
    parse data data.length req = parseList data State.method [] req := by
  rw [parse_eq_parseList, padTo_full]

/-- Joining header lines with CRLF separators (the shape of a raw header
block on the wire, before the terminating blank line). -/
def joinCRLF : List (List Char) → List Char
  | [] => []
  | [l] => l
  | l :: ls => l ++ CRLF ++ joinCRLF ls

theorem parseList_method_space (rest hacc : List Char) (req : Request)
    (h : req.method ≠ []) :
    parseList (SPACE :: rest) State.method hacc req =
      parseList rest State.url hacc req := by
  rw [parseList_cons_method, if_pos rfl, if_neg h]

theorem parseList_url_space (rest hacc : List Char) (req : Request)
    (h : req.url ≠ []) :
    parseList (SPACE :: rest) State.url hacc req =
      parseList rest State.version hacc req := by
  rw [parseList_cons_url, if_pos rfl, if_neg h]

theorem parseList_version_crlf (rest hacc : List Char) (req : Request)
    (h : req.version ≠ []) :
    parseList (CR :: LF :: rest) State.version hacc req =
      parseList rest State.headers hacc req := by
  rw [parseList_version_two, if_pos rfl, if_neg h,
    if_neg (by simp : ¬ LF ≠ LF)]

theorem parseList_version_step (c : Char) (rest hacc : List Char)
    (req : Request) (hc : c ≠ CR)
    (hlen : ¬ req.version.length = max_version_len) :
    parseList (c :: rest) State.version hacc req =
      parseList rest State.version hacc
        { req with version := req.version ++ [c] } := by
  cases rest with
  | nil => rw [parseList_version_one, if_neg hc, if_neg hlen]
  | cons d t => rw [parseList_version_two, if_neg hc, if_neg hlen]

theorem parseList_headers_step (c : Char) (rest hacc : List Char)
    (req : Request) (hc : c ≠ CR) (hl : c ≠ LF) :
    parseList (c :: rest) State.headers hacc req =
      parseList rest State.headers (hacc ++ [c]) req := by
  rw [parseList_cons_headers, if_neg hc, if_neg hl]

theorem parseList_headers_crlf_cont (d : Char) (t hacc : List Char)
    (req : Request) (hd : d ≠ CR) :
    parseList (CR :: LF :: d :: t) State.headers hacc req =
      parseList (d :: t) State.headers (hacc ++ CRLF) req := by
  cases t with
  | nil =>
    rw [parseList_headers_three, if_pos rfl, if_neg (by simp : ¬ LF ≠ LF)]
  | cons e t2 =>
    rw [parseList_headers_four, if_pos rfl, if_neg (by simp : ¬ LF ≠ LF),
      if_neg (by tauto : ¬ (d = CR ∧ e = LF))]

theorem parseList_headers_term (rest hacc : List Char) (req : Request) :
    parseList (CR :: LF :: CR :: LF :: rest) State.headers hacc req =
      parseFinish hacc req := by
  rw [parseList_headers_four, if_pos rfl, if_neg (by simp : ¬ LF ≠ LF),
    if_pos ⟨rfl, rfl⟩]

theorem parseList_consume_method (m : List Char) :
    ∀ (rest hacc : List Char) (req : Request),
      (∀ c ∈ m, c ≠ SPACE ∧ c ≠ CR ∧ c ≠ LF) →
      req.method.length + m.length ≤ max_method_len →
      parseList (m ++ rest) State.method hacc req =
        parseList rest State.method hacc
          { req with method := req.method ++ m } := by
  induction m with
  | nil =>
    intro rest hacc req _ _
    simp
  | cons c m2 ih =>
    intro rest hacc req hchars hlen
    obtain ⟨hs, hr, hl⟩ := hchars c (List.mem_cons_self c m2)
    simp only [List.length_cons] at hlen
    rw [List.cons_append, parseList_cons_method, if_neg hs,
      if_neg (by tauto : ¬ (c = CR ∨ c = LF)),
      if_neg (by omega : ¬ req.method.length = max_method_len),
      ih rest hacc _ (fun d hd => hchars d (List.mem_cons_of_mem c hd))
        (by simp
            omega)]
    simp [List.append_assoc]

theorem parseList_consume_url (m : List Char) :
    ∀ (rest hacc : List Char) (req : Request),
      (∀ c ∈ m, c ≠ SPACE ∧ c ≠ CR ∧ c ≠ LF) →
      req.url.length + m.length ≤ max_url_len →
      parseList (m ++ rest) State.url hacc req =
        parseList rest State.url hacc
          { req with url := req.url ++ m } := by
  induction m with
  | nil =>
    intro rest hacc req _ _
    simp
  | cons c m2 ih =>
    intro rest hacc req hchars hlen
    obtain ⟨hs, hr, hl⟩ := hchars c (List.mem_cons_self c m2)
    simp only [List.length_cons] at hlen
    rw [List.cons_append, parseList_cons_url, if_neg hs,
      if_neg (by tauto : ¬ (c = CR ∨ c = LF)),
      if_neg (by omega : ¬ req.url.length = max_url_len),
      ih rest hacc _ (fun d hd => hchars d (List.mem_cons_of_mem c hd))
        (by simp
            omega)]
    simp [List.append_assoc]

theorem parseList_consume_version (m : List Char) :
    ∀ (rest hacc : List Char) (req : Request),
      (∀ c ∈ m, c ≠ CR) →
      req.version.length + m.length ≤ max_version_len →
      parseList (m ++ rest) State.version hacc req =
        parseList rest State.version hacc
          { req with version := req.version ++ m } := by
  induction m with
  | nil =>
    intro rest hacc req _ _
    simp
  | cons c m2 ih =>
    intro rest hacc req hchars hlen
    have hc := hchars c (List.mem_cons_self c m2)
    simp only [List.length_cons] at hlen
    rw [List.cons_append,
      parseList_version_step c _ hacc req hc
        (by omega : ¬ req.version.length = max_version_len),
      ih rest hacc _ (fun d hd => hchars d (List.mem_cons_of_mem c hd))
        (by simp
            omega)]
    simp [List.append_assoc]

theorem parseList_consume_headers (t : List Char) :
    ∀ (rest hacc : List Char) (req : Request),
      (∀ c ∈ t, c ≠ CR ∧ c ≠ LF) →
      parseList (t ++ rest) State.headers hacc req =
        parseList rest State.headers (hacc ++ t) req := by
  induction t with
  | nil =>
    intro rest hacc req _
    simp
  | cons c t2 ih =>
    intro rest hacc req hchars
    obtain ⟨hr, hl⟩ := hchars c (List.mem_cons_self c t2)
    rw [List.cons_append, parseList_headers_step c _ hacc req hr hl,
      ih rest (hacc ++ [c]) req (fun d hd => hchars d (List.mem_cons_of_mem c hd))]
    simp [List.append_assoc]

theorem string_split_no_cr (l : List Char) (h : ∀ c ∈ l, c ≠ CR) :
    string_split l = [l] := by
  induction l with
  | nil => rfl
  | cons c t ih =>
    rw [string_split.eq_3 c t
      (fun r hcr _ => absurd hcr (h c (List.mem_cons_self c t))),
      ih (fun d hd => h d (List.mem_cons_of_mem c hd))]

theorem string_split_append_crlf (l : List Char) :
    ∀ t, (∀ c ∈ l, c ≠ CR) →
      string_split (l ++ CRLF ++ t) = l :: string_split t := by
  induction l with
  | nil =>
    intro t _
    have h2 : ([] : List Char) ++ CRLF ++ t = '\r' :: '\n' :: t := rfl
    rw [h2, string_split.eq_2]
  | cons c l2 ih =>
    intro t h
    have hc : c ≠ CR := h c (List.mem_cons_self c l2)
    have h2 : (c :: l2) ++ CRLF ++ t = c :: (l2 ++ CRLF ++ t) := by
      simp
    rw [h2, string_split.eq_3 c _ (fun r hcr _ => absurd hcr hc),
      ih t (fun d hd => h d (List.mem_cons_of_mem c hd))]

theorem findSub_sep_append (k : List Char) :
    ∀ v, findSub headerSep k = none →
      findSub headerSep (k ++ headerSep ++ v) = some k.length := by
  induction k with
  | nil =>
    intro v _
    simp [findSub, List.isPrefixOf, headerSep]
  | cons c k2 ih =>
    intro v h
    simp only [findSub] at h
    by_cases hp : headerSep.isPrefixOf (c :: k2) = true
    · rw [if_pos hp] at h
      exact absurd h (by simp)
    · rw [if_neg hp] at h
      have hk2 : findSub headerSep k2 = none := by
        cases hfk : findSub headerSep k2 with
        | none => rfl
        | some m => rw [hfk] at h; simp at h
      have hnp : ¬ headerSep.isPrefixOf (c :: (k2 ++ headerSep ++ v)) = true := by
        intro hpre
        apply hp
        cases k2 with
        | nil => simp [headerSep, List.isPrefixOf] at hpre
        | cons d k3 =>
          simp [headerSep, List.isPrefixOf] at hpre ⊢
          tauto
      have h2 : (c :: k2) ++ headerSep ++ v = c :: (k2 ++ headerSep ++ v) := by
        simp
      rw [h2]
      simp only [findSub]
      rw [if_neg hnp, ih v hk2]
      simp

theorem sep_take (k v : List Char) :
    (k ++ headerSep ++ v).take k.length = k := by
  rw [List.append_assoc]
  exact List.take_left k (headerSep ++ v)

theorem sep_drop (k v : List Char) :
    (k ++ headerSep ++ v).drop (k.length + 2) = v := by
  have h2 : k.length + 2 = (k ++ headerSep).length := by simp [headerSep]
  rw [h2]
  exact List.drop_left (k ++ headerSep) v

theorem splitHeadersGo_cons_found (t : List Char) (ts : List (List Char))
    (req : Request) (idx : Nat) (h : findSub headerSep t = some idx) :
    splitHeadersGo (t :: ts) req =
      splitHeadersGo ts
        { req with headers := emplace (t.take idx) (t.drop (idx + 2)) req.headers } := by
  simp only [splitHeadersGo, h]

theorem splitHeadersGo_cons_bad (t : List Char) (ts : List (List Char))
    (req : Request) (h : findSub headerSep t = none) :
    splitHeadersGo (t :: ts) req = (false, req) := by
  simp only [splitHeadersGo, h]

theorem splitHeadersGo_preserves (ts : List (List Char)) :
    ∀ req : Request, (splitHeadersGo ts req).2.method = req.method ∧
      (splitHeadersGo ts req).2.url = req.url ∧
      (splitHeadersGo ts req).2.version = req.version := by
  induction ts with
  | nil => intro req; exact ⟨rfl, rfl, rfl⟩
  | cons t ts2 ih =>
    intro req
    cases hf : findSub headerSep t with
    | none => rw [splitHeadersGo_cons_bad t ts2 req hf]; exact ⟨rfl, rfl, rfl⟩
    | some idx =>
      rw [splitHeadersGo_cons_found t ts2 req idx hf]
      exact ih _

theorem splitHeadersGo_bad (ts : List (List Char)) :
    ∀ req : Request, (∃ t ∈ ts, findSub headerSep t = none) →
      (splitHeadersGo ts req).1 = false := by
  induction ts with
  | nil =>
    intro req h
    obtain ⟨t, ht, _⟩ := h
    exact absurd ht (List.not_mem_nil t)
  | cons t ts2 ih =>
    intro req h
    cases hf : findSub headerSep t with
    | none => rw [splitHeadersGo_cons_bad t ts2 req hf]
    | some idx =>
      rw [splitHeadersGo_cons_found t ts2 req idx hf]
      obtain ⟨u, hu, hbad⟩ := h
      rcases List.mem_cons.mp hu with rfl | hu2
      · rw [hf] at hbad
        exact absurd hbad (by simp)
      · exact ih _ ⟨u, hu2, hbad⟩

theorem splitHeadersGo_good (pairs : List (List Char × List Char)) :
    ∀ req : Request, (∀ p ∈ pairs, findSub headerSep p.1 = none) →
      splitHeadersGo (pairs.map (fun p => p.1 ++ headerSep ++ p.2)) req =
        (true, { req with headers := emplaceAll pairs req.headers }) := by
  induction pairs with
  | nil =>
    intro req _
    simp [splitHeadersGo, emplaceAll]
  | cons p ps ih =>
    intro req hkeys
    rw [List.map_cons,
      splitHeadersGo_cons_found _ _ req p.1.length
        (findSub_sep_append p.1 p.2 (hkeys p (List.mem_cons_self p ps))),
      sep_take, sep_drop,
      ih _ (fun q hq => hkeys q (List.mem_cons_of_mem p hq))]
    simp only [emplaceAll, List.foldl_cons]

theorem lookup_append_of_none (l1 : List (List Char × List Char)) :
    ∀ (l2 : List (List Char × List Char)) (k : List Char),
      l1.lookup k = none → (l1 ++ l2).lookup k = l2.lookup k := by
  induction l1 with
  | nil => intro l2 k _; rfl
  | cons p l12 ih =>
    intro l2 k h
    cases p with
    | mk a b =>
      rw [List.cons_append]
      cases hb : (k == a) with
      | true => simp [List.lookup, hb] at h
      | false =>
        simp only [List.lookup, hb] at h ⊢
        exact ih l2 k h

theorem lookup_append_of_some (l1 : List (List Char × List Char)) :
    ∀ (l2 : List (List Char × List Char)) (k w : List Char),
      l1.lookup k = some w → (l1 ++ l2).lookup k = some w := by
  induction l1 with
  | nil => intro l2 k w h; exact absurd h (by simp)
  | cons p l12 ih =>
    intro l2 k w h
    cases p with
    | mk a b =>
      rw [List.cons_append]
      cases hb : (k == a) with
      | true => simp only [List.lookup, hb] at h ⊢; exact h
      | false =>
        simp only [List.lookup, hb] at h ⊢
        exact ih l2 k w h

theorem lookup_single_none (a v k : List Char) (h : k ≠ a) :
    ([(a, v)] : List (List Char × List Char)).lookup k = none := by
  cases hb : (k == a) with
  | true => exact absurd (eq_of_beq hb) h
  | false => simp [List.lookup, hb]

theorem lookup_cons_self (a v : List Char)
    (l : List (List Char × List Char)) :
    ((a, v) :: l).lookup a = some v := by
  simp [List.lookup]

theorem lookup_cons_ne (a v k : List Char)
    (l : List (List Char × List Char)) (h : k ≠ a) :
    ((a, v) :: l).lookup k = l.lookup k := by
  cases hb : (k == a) with
  | true => exact absurd (eq_of_beq hb) h
  | false => simp [List.lookup, hb]

theorem emplace_absent (k v : List Char) (m : List (List Char × List Char))
    (h : m.lookup k = none) : emplace k v m = m ++ [(k, v)] := by
  simp [emplace, h]

theorem emplace_present (k v : List Char) (m : List (List Char × List Char))
    (w : List Char) (h : m.lookup k = some w) : emplace k v m = m := by
  simp [emplace, h]

theorem emplaceAll_distinct (pairs : List (List Char × List Char)) :
    ∀ acc : List (List Char × List Char),
      (∀ p ∈ pairs, acc.lookup p.1 = none) →
      (pairs.map Prod.fst).Pairwise (fun a b => a ≠ b) →
      emplaceAll pairs acc = acc ++ pairs := by
  induction pairs with
  | nil => intro acc _ _; simp [emplaceAll]
  | cons p ps ih =>
    intro acc habs hdist
    rw [emplaceAll, List.foldl_cons]
    rw [show List.foldl (fun acc2 p2 => emplace p2.1 p2.2 acc2)
        (emplace p.1 p.2 acc) ps = emplaceAll ps (emplace p.1 p.2 acc) from rfl]
    rw [emplace_absent p.1 p.2 acc (habs p (List.mem_cons_self p ps)),
      ih (acc ++ [(p.1, p.2)]) ?_ ?_]
    · simp
    · intro q hq
      rw [lookup_append_of_none acc _ q.1 (habs q (List.mem_cons_of_mem p hq))]
      have hne : q.1 ≠ p.1 := by
        have hp1 : ∀ b ∈ ps.map Prod.fst, p.1 ≠ b :=
          (List.pairwise_cons.mp (by simpa using hdist)).1
        exact fun he => (hp1 q.1 (List.mem_map_of_mem Prod.fst hq)) he.symm
      exact lookup_single_none p.1 p.2 q.1 hne
    · exact (List.pairwise_cons.mp (by simpa using hdist)).2

theorem emplaceAll_lookup (pairs : List (List Char × List Char)) :
    ∀ (acc : List (List Char × List Char)) (k : List Char),
      (emplaceAll pairs acc).lookup k =
        (acc.lookup k).or (pairs.lookup k) := by
  induction pairs with
  | nil => intro acc k; simp [emplaceAll]
  | cons p ps ih =>
    intro acc k
    rw [emplaceAll, List.foldl_cons]
    rw [show List.foldl (fun acc2 p2 => emplace p2.1 p2.2 acc2)
        (emplace p.1 p.2 acc) ps = emplaceAll ps (emplace p.1 p.2 acc) from rfl]
    rw [ih]
    cases hacc : acc.lookup p.1 with
    | some w =>
      rw [emplace_present p.1 p.2 acc w hacc]
      by_cases hk : k = p.1
      · subst hk
        rw [hacc]
        have h1 : ((p.1, p.2) :: ps).lookup p.1 = some p.2 := by
          cases p with
          | mk a b => exact lookup_cons_self a b ps
        cases p with
        | mk a b => rw [lookup_cons_self a b ps]; rfl
      · cases p with
        | mk a b =>
          rw [lookup_cons_ne a b k ps hk]
    | none =>
      rw [emplace_absent p.1 p.2 acc hacc]
      by_cases hk : k = p.1
      · subst hk
        rw [lookup_append_of_none acc _ p.1 hacc, hacc]
        cases p with
        | mk a b =>
          rw [lookup_cons_self a b ps]
          simp [List.lookup]
      · have hstep : (acc ++ [(p.1, p.2)]).lookup k = acc.lookup k := by
          cases hacck : acc.lookup k with
          | some w => exact lookup_append_of_some acc _ k w hacck
          | none =>
            rw [lookup_append_of_none acc _ k hacck]
            exact lookup_single_none p.1 p.2 k hk
        rw [hstep]
        cases p with
        | mk a b =>
          rw [lookup_cons_ne a b k ps hk]

theorem parseFinish_snd (hacc : List Char) (req : Request) :
    (parseFinish hacc req).2 = (split_headers hacc req).2 := by
  unfold parseFinish
  cases h : split_headers hacc req with
  | mk b r => cases b <;> rfl

theorem parseFinish_fst (hacc : List Char) (req : Request) :
    (parseFinish hacc req).1 = ParseResult.success ∨
      (parseFinish hacc req).1 = ParseResult.invalid_headers := by
  unfold parseFinish
  cases h : split_headers hacc req with
  | mk b r => cases b <;> simp

theorem parseFinish_nil (req : Request) :
    parseFinish [] req = (ParseResult.invalid_headers, req) := rfl

theorem CRLF_append (x : List Char) : CRLF ++ x = CR :: LF :: x := rfl

theorem joinCRLF_cons_head (e : Char) (l2 : List Char)
    (ls2 : List (List Char)) :
    ∃ T, joinCRLF ((e :: l2) :: ls2) = e :: T := by
  cases ls2 with
  | nil => exact ⟨l2, rfl⟩
  | cons f ls3 => exact ⟨l2 ++ CRLF ++ joinCRLF (f :: ls3), rfl⟩

theorem parseList_request_line (m u v rest : List Char)
    (hm : m ≠ []) (hm32 : m.length ≤ max_method_len)
    (hmc : ∀ c ∈ m, c ≠ SPACE ∧ c ≠ CR ∧ c ≠ LF)
    (hu : u ≠ []) (humax : u.length ≤ max_url_len)
    (huc : ∀ c ∈ u, c ≠ SPACE ∧ c ≠ CR ∧ c ≠ LF)
    (hv : v ≠ []) (hvmax : v.length ≤ max_version_len)
    (hvc : ∀ c ∈ v, c ≠ CR) :
    parseList (m ++ SPACE :: (u ++ SPACE :: (v ++ CR :: LF :: rest)))
      State.method [] Request.empty =
      parseList rest State.headers [] ⟨m, u, v, []⟩ := by
  rw [parseList_consume_method m _ [] Request.empty hmc
    (by simpa [Request.empty] using hm32)]
  rw [show { Request.empty with method := Request.empty.method ++ m } =
      (⟨m, [], [], []⟩ : Request) from by simp [Request.empty]]
  rw [parseList_method_space _ [] _ hm]
  rw [parseList_consume_url u _ [] _ huc (by simpa using humax)]
  rw [show { (⟨m, [], [], []⟩ : Request) with
      url := (⟨m, [], [], []⟩ : Request).url ++ u } =
      (⟨m, u, [], []⟩ : Request) from by simp]
  rw [parseList_url_space _ [] _ hu]
  rw [parseList_consume_version v _ [] _ hvc (by simpa using hvmax)]
  rw [show { (⟨m, u, [], []⟩ : Request) with
      version := (⟨m, u, [], []⟩ : Request).version ++ v } =
      (⟨m, u, v, []⟩ : Request) from by simp]
  rw [parseList_version_crlf rest [] _ hv]

theorem parseList_headers_block (lines : List (List Char)) :
    ∀ (rest hacc : List Char) (req : Request),
      (∀ l ∈ lines, l ≠ [] ∧ ∀ c ∈ l, c ≠ CR ∧ c ≠ LF) →
      lines ≠ [] →
      parseList (joinCRLF lines ++ CR :: LF :: CR :: LF :: rest)
        State.headers hacc req =
        parseFinish (hacc ++ joinCRLF lines) req := by
  induction lines with
  | nil => intro rest hacc req _ hne; exact absurd rfl hne
  | cons l ls ih =>
    intro rest hacc req hl _
    obtain ⟨hlne, hlc⟩ := hl l (List.mem_cons_self l ls)
    have hlcr : ∀ c ∈ l, c ≠ CR := fun c hc => (hlc c hc).1
    cases ls with
    | nil =>
      rw [show joinCRLF [l] = l from rfl,
        parseList_consume_headers l _ hacc req hlc,
        parseList_headers_term rest (hacc ++ l) req]
    | cons l2 ls2 =>
      obtain ⟨hl2ne, hl2c⟩ := hl l2 (List.mem_cons_of_mem l (List.mem_cons_self l2 ls2))
      rw [show joinCRLF (l :: l2 :: ls2) =
          l ++ CRLF ++ joinCRLF (l2 :: ls2) from rfl]
      have hassoc : (l ++ CRLF ++ joinCRLF (l2 :: ls2)) ++
          CR :: LF :: CR :: LF :: rest =
          l ++ (CR :: LF :: (joinCRLF (l2 :: ls2) ++
            CR :: LF :: CR :: LF :: rest)) := by
        simp [CRLF, CR, LF]
      rw [hassoc, parseList_consume_headers l _ hacc req hlc]
      cases hl2 : l2 with
      | nil => exact absurd hl2 hl2ne
      | cons e l2t =>
        have he : e ≠ CR := by
          have := hl2c e (by rw [hl2]; exact List.mem_cons_self e l2t)
          exact this.1
        subst hl2
        obtain ⟨T, hT⟩ := joinCRLF_cons_head e l2t ls2
        rw [hT, List.cons_append,
          parseList_headers_crlf_cont e (T ++ CR :: LF :: CR :: LF :: rest)
            (hacc ++ l) req he,
          ← List.cons_append, ← hT,
          ih rest (hacc ++ l ++ CRLF) req
            (fun q hq => hl q (List.mem_cons_of_mem l hq)) (by simp)]
        simp [List.append_assoc]

theorem parseFinish_ne_invalid_version (hacc : List Char) (req : Request) :
    (parseFinish hacc req).1 ≠ ParseResult.invalid_version := by
  rcases parseFinish_fst hacc req with h | h <;> rw [h] <;> simp

theorem parseList_ne_invalid_version (rem : List Char) (st : State)
    (hacc : List Char) (req : Request) :
    (parseList rem st hacc req).1 ≠ ParseResult.invalid_version := by
  induction rem, st, hacc, req using parseList.induct
  all_goals rw [parseList.eq_def]
  all_goals simp_all [parseFinish_ne_invalid_version]
  all_goals split_ifs
  all_goals first
    | exact parseFinish_ne_invalid_version _ _
    | assumption

/-- The success invariant of the output record: non-empty request-line
tokens, each within its limit. -/
def goodReq (r : Request) : Prop :=
  r.method ≠ [] ∧ r.method.length ≤ max_method_len ∧
  r.url ≠ [] ∧ r.url.length ≤ max_url_len ∧
  r.version ≠ [] ∧ r.version.length ≤ max_version_len

theorem parseFinish_good (hacc : List Char) (req : Request)
    (h1 : req.method ≠ []) (h2 : req.url ≠ []) (h3 : req.version ≠ [])
    (hl1 : req.method.length ≤ max_method_len)
    (hl2 : req.url.length ≤ max_url_len)
    (hl3 : req.version.length ≤ max_version_len) :
    goodReq (parseFinish hacc req).2 := by
  obtain ⟨pm, pu, pv⟩ := splitHeadersGo_preserves (string_split hacc) req
  rw [goodReq, parseFinish_snd,
    show split_headers hacc req = splitHeadersGo (string_split hacc) req
      from rfl, pm, pu, pv]
  exact ⟨h1, hl1, h2, hl2, h3, hl3⟩

theorem parseList_success_inv :
    ∀ (rem : List Char) (st : State) (hacc : List Char) (req : Request),
      (st = State.method → hacc = []) →
      (st = State.url → hacc = [] ∧ req.method ≠ []) →
      (st = State.version → hacc = [] ∧ req.method ≠ [] ∧ req.url ≠ []) →
      (st = State.headers →
        req.method ≠ [] ∧ req.url ≠ [] ∧ req.version ≠ []) →
      req.method.length ≤ max_method_len →
      req.url.length ≤ max_url_len →
      req.version.length ≤ max_version_len →
      (parseList rem st hacc req).1 = ParseResult.success →
      goodReq (parseList rem st hacc req).2 := by
  intro rem st hacc req
  induction rem, st, hacc, req using parseList.induct
  case case1 st hacc req =>
    intro hm hu hv hh hlm hlu hlv hsucc
    rw [parseList_nil] at hsucc ⊢
    cases st with
    | method =>
      rw [hm rfl, parseFinish_nil] at hsucc
      exact absurd hsucc (by simp)
    | url =>
      rw [(hu rfl).1, parseFinish_nil] at hsucc
      exact absurd hsucc (by simp)
    | version =>
      rw [(hv rfl).1, parseFinish_nil] at hsucc
      exact absurd hsucc (by simp)
    | headers =>
      obtain ⟨h1, h2, h3⟩ := hh rfl
      exact parseFinish_good hacc req h1 h2 h3 hlm hlu hlv
  case case2 rest hacc req h =>
    intro hm hu hv hh hlm hlu hlv hsucc
    rw [parseList_cons_method, if_pos rfl, if_pos h] at hsucc
    exact absurd hsucc (by simp)
  case case3 rest hacc req h ih =>
    intro hm hu hv hh hlm hlu hlv hsucc
    rw [parseList_cons_method, if_pos rfl, if_neg h] at hsucc ⊢
    exact ih (fun hx => nomatch hx) (fun _ => ⟨hm rfl, h⟩)
      (fun hx => nomatch hx) (fun hx => nomatch hx) hlm hlu hlv hsucc
  case case4 c rest hacc req h1 h2 =>
    intro hm hu hv hh hlm hlu hlv hsucc
    rw [parseList_cons_method, if_neg h1, if_pos h2] at hsucc
    exact absurd hsucc (by simp)
  case case5 c rest hacc req h1 h2 h3 =>
    intro hm hu hv hh hlm hlu hlv hsucc
    rw [parseList_cons_method, if_neg h1, if_neg h2, if_pos h3] at hsucc
    exact absurd hsucc (by simp)
  case case6 c rest hacc req h1 h2 h3 ih =>
    intro hm hu hv hh hlm hlu hlv hsucc
    rw [parseList_cons_method, if_neg h1, if_neg h2, if_neg h3] at hsucc ⊢
    refine ih (fun _ => hm rfl) (fun hx => nomatch hx) (fun hx => nomatch hx)
      (fun hx => nomatch hx) ?_ hlu hlv hsucc
    simp only [List.length_append, List.length_cons, List.length_nil]
    omega
  case case7 rest hacc req h =>
    intro hm hu hv hh hlm hlu hlv hsucc
    rw [parseList_cons_url, if_pos rfl, if_pos h] at hsucc
    exact absurd hsucc (by simp)
  case case8 rest hacc req h ih =>
    intro hm hu hv hh hlm hlu hlv hsucc
    rw [parseList_cons_url, if_pos rfl, if_neg h] at hsucc ⊢
    exact ih (fun hx => nomatch hx) (fun hx => nomatch hx)
      (fun _ => ⟨(hu rfl).1, (hu rfl).2, h⟩) (fun hx => nomatch hx)
      hlm hlu hlv hsucc
  case case9 c rest hacc req h1 h2 =>
    intro hm hu hv hh hlm hlu hlv hsucc
    rw [parseList_cons_url, if_neg h1, if_pos h2] at hsucc
    exact absurd hsucc (by simp)
  case case10 c rest hacc req h1 h2 h3 =>
    intro hm hu hv hh hlm hlu hlv hsucc
    rw [parseList_cons_url, if_neg h1, if_neg h2, if_pos h3] at hsucc
    exact absurd hsucc (by simp)
  case case11 c rest hacc req h1 h2 h3 ih =>
    intro hm hu hv hh hlm hlu hlv hsucc
    rw [parseList_cons_url, if_neg h1, if_neg h2, if_neg h3] at hsucc ⊢
    refine ih (fun hx => nomatch hx) (fun _ => ⟨(hu rfl).1, (hu rfl).2⟩)
      (fun hx => nomatch hx) (fun hx => nomatch hx) hlm ?_ hlv hsucc
    simp only [List.length_append, List.length_cons, List.length_nil]
    omega
  case case12 rest hacc req h =>
    intro hm hu hv hh hlm hlu hlv hsucc
    cases rest with
    | nil =>
      rw [parseList_version_one, if_pos rfl, if_pos h] at hsucc
      exact absurd hsucc (by simp)
    | cons d t =>
      rw [parseList_version_two, if_pos rfl, if_pos h] at hsucc
      exact absurd hsucc (by simp)
  case case13 hacc req h =>
    intro hm hu hv hh hlm hlu hlv hsucc
    rw [parseList_version_one, if_pos rfl, if_neg h] at hsucc
    exact absurd hsucc (by simp)
  case case14 hacc req h c rest hc =>
    intro hm hu hv hh hlm hlu hlv hsucc
    rw [parseList_version_two, if_pos rfl, if_neg h, if_pos hc] at hsucc
    exact absurd hsucc (by simp)
  case case15 hacc req h c rest hc ih =>
    intro hm hu hv hh hlm hlu hlv hsucc
    rw [parseList_version_two, if_pos rfl, if_neg h, if_neg hc] at hsucc ⊢
    exact ih (fun hx => nomatch hx) (fun hx => nomatch hx)
      (fun hx => nomatch hx) (fun _ => ⟨(hv rfl).2.1, (hv rfl).2.2, h⟩)
      hlm hlu hlv hsucc
  case case16 c rest hacc req hc hlen =>
    intro hm hu hv hh hlm hlu hlv hsucc
    cases rest with
    | nil =>
      rw [parseList_version_one, if_neg hc, if_pos hlen] at hsucc
      exact absurd hsucc (by simp)
    | cons d t =>
      rw [parseList_version_two, if_neg hc, if_pos hlen] at hsucc
      exact absurd hsucc (by simp)
  case case17 c rest hacc req hc hlen ih =>
    intro hm hu hv hh hlm hlu hlv hsucc
    have hnew : ({ req with version := req.version ++ [c] } :
        Request).version.length ≤ max_version_len := by
      simp only [List.length_append, List.length_cons, List.length_nil]
      omega
    cases rest with
    | nil =>
      rw [parseList_version_one, if_neg hc, if_neg hlen] at hsucc ⊢
      exact ih (fun hx => nomatch hx) (fun hx => nomatch hx)
        (fun _ => ⟨(hv rfl).1, (hv rfl).2.1, (hv rfl).2.2⟩)
        (fun hx => nomatch hx) hlm hlu hnew hsucc
    | cons d t =>
      rw [parseList_version_two, if_neg hc, if_neg hlen] at hsucc ⊢
      exact ih (fun hx => nomatch hx) (fun hx => nomatch hx)
        (fun _ => ⟨(hv rfl).1, (hv rfl).2.1, (hv rfl).2.2⟩)
        (fun hx => nomatch hx) hlm hlu hnew hsucc
  case case18 hacc req =>
    intro hm hu hv hh hlm hlu hlv hsucc
    rw [parseList_headers_one, if_pos rfl] at hsucc
    exact absurd hsucc (by simp)
  case case19 hacc req c rest hc =>
    intro hm hu hv hh hlm hlu hlv hsucc
    cases rest with
    | nil =>
      rw [parseList_headers_two, if_pos rfl, if_pos hc] at hsucc
      exact absurd hsucc (by simp)
    | cons x xs =>
      cases xs with
      | nil =>
        rw [parseList_headers_three, if_pos rfl, if_pos hc] at hsucc
        exact absurd hsucc (by simp)
      | cons y ys =>
        rw [parseList_headers_four, if_pos rfl, if_pos hc] at hsucc
        exact absurd hsucc (by simp)
  case case20 hacc req c hcl c3 c4 tail hstop =>
    intro hm hu hv hh hlm hlu hlv hsucc
    rw [parseList_headers_four, if_pos rfl, if_neg hcl, if_pos hstop] at hsucc ⊢
    obtain ⟨h1, h2, h3⟩ := hh rfl
    exact parseFinish_good hacc req h1 h2 h3 hlm hlu hlv
  case case21 hacc req c hcl c3 c4 tail hnstop ih =>
    intro hm hu hv hh hlm hlu hlv hsucc
    rw [parseList_headers_four, if_pos rfl, if_neg hcl, if_neg hnstop]
      at hsucc ⊢
    exact ih (fun hx => nomatch hx) (fun hx => nomatch hx)
      (fun hx => nomatch hx) (fun _ => hh rfl) hlm hlu hlv hsucc
  case case22 hacc req c rest hcl hshape ih =>
    intro hm hu hv hh hlm hlu hlv hsucc
    cases rest with
    | nil =>
      rw [parseList_headers_two, if_pos rfl, if_neg hcl] at hsucc ⊢
      exact ih (fun hx => nomatch hx) (fun hx => nomatch hx)
        (fun hx => nomatch hx) (fun _ => hh rfl) hlm hlu hlv hsucc
    | cons x xs =>
      cases xs with
      | nil =>
        rw [parseList_headers_three, if_pos rfl, if_neg hcl] at hsucc ⊢
        exact ih (fun hx => nomatch hx) (fun hx => nomatch hx)
          (fun hx => nomatch hx) (fun _ => hh rfl) hlm hlu hlv hsucc
      | cons y ys => exact (hshape x y ys rfl).elim
  case case23 rest hacc req h =>
    intro hm hu hv hh hlm hlu hlv hsucc
    rw [parseList_cons_headers, if_neg h, if_pos rfl] at hsucc
    exact absurd hsucc (by simp)
  case case24 c rest hacc req hc hl ih =>
    intro hm hu hv hh hlm hlu hlv hsucc
    rw [parseList_cons_headers, if_neg hc, if_neg hl] at hsucc ⊢
    exact ih (fun hx => nomatch hx) (fun hx => nomatch hx)
      (fun hx => nomatch hx) (fun _ => hh rfl) hlm hlu hlv hsucc

theorem string_split_joinCRLF (lines : List (List Char)) (hne : lines ≠ [])
    (h : ∀ l ∈ lines, ∀ c ∈ l, c ≠ CR) :
    string_split (joinCRLF lines) = lines := by
  induction lines with
  | nil => exact absurd rfl hne
  | cons l ls ih =>
    cases ls with
    | nil =>
      rw [show joinCRLF [l] = l from rfl,
        string_split_no_cr l (h l (List.mem_cons_self l []))]
    | cons l2 ls2 =>
      rw [show joinCRLF (l :: l2 :: ls2) =
          l ++ CRLF ++ joinCRLF (l2 :: ls2) from rfl,
        string_split_append_crlf l _ (h l (List.mem_cons_self l (l2 :: ls2))),
        ih (by simp) (fun q hq c hc => h q (List.mem_cons_of_mem l hq) c hc)]

theorem req0_method (m : List Char) :
    { Request.empty with method := Request.empty.method ++ m } =
      (⟨m, [], [], []⟩ : Request) := by
  simp [Request.empty]

theorem req1_url (m u : List Char) :
    { (⟨m, [], [], []⟩ : Request) with
      url := (⟨m, [], [], []⟩ : Request).url ++ u } =
      (⟨m, u, [], []⟩ : Request) := by
  simp

theorem req2_version (m u v : List Char) :
    { (⟨m, u, [], []⟩ : Request) with
      version := (⟨m, u, [], []⟩ : Request).version ++ v } =
      (⟨m, u, v, []⟩ : Request) := by
  simp

theorem parseList_start_tokens (m u X : List Char)
    (hm : m ≠ []) (hm32 : m.length ≤ max_method_len)
    (hmc : ∀ c ∈ m, c ≠ SPACE ∧ c ≠ CR ∧ c ≠ LF)
    (hu : u ≠ []) (humax : u.length ≤ max_url_len)
    (huc : ∀ c ∈ u, c ≠ SPACE ∧ c ≠ CR ∧ c ≠ LF) :
    parseList (m ++ SPACE :: (u ++ SPACE :: X)) State.method [] Request.empty =
      parseList X State.version [] ⟨m, u, [], []⟩ := by
  rw [parseList_consume_method m _ [] Request.empty hmc
      (by simpa [Request.empty] using hm32),
    req0_method, parseList_method_space _ [] _ hm,
    parseList_consume_url u _ [] _ huc (by simpa using humax),
    req1_url, parseList_url_space _ [] _ hu]

/-- The full happy path shared by the end-to-end claims: a well-formed
request line followed by the header lines built from `pairs` and the
terminating blank line parses to `success` with the request-line tokens
reproduced exactly and the header map equal to the `emplace` fold of the
pairs. -/
theorem parse_valid_request_core (m u v : List Char)
    (pairs : List (List Char × List Char))
    (hm : m ≠ []) (hm32 : m.length ≤ max_method_len)
    (hmc : ∀ c ∈ m, c ≠ SPACE ∧ c ≠ CR ∧ c ≠ LF)
    (hu : u ≠ []) (humax : u.length ≤ max_url_len)
    (huc : ∀ c ∈ u, c ≠ SPACE ∧ c ≠ CR ∧ c ≠ LF)
    (hv : v ≠ []) (hvmax : v.length ≤ max_version_len)
    (hvc : ∀ c ∈ v, c ≠ CR)
    (hp : pairs ≠ [])
    (hkeys : ∀ p ∈ pairs, findSub headerSep p.1 = none ∧
      (∀ c ∈ p.1, c ≠ CR ∧ c ≠ LF) ∧ (∀ c ∈ p.2, c ≠ CR ∧ c ≠ LF)) :
    parse
      (m ++ SPACE :: (u ++ SPACE :: (v ++ CR :: LF ::
        (joinCRLF (pairs.map (fun p => p.1 ++ headerSep ++ p.2)) ++
          CR :: LF :: CR :: LF :: []))))
      (m ++ SPACE :: (u ++ SPACE :: (v ++ CR :: LF ::
        (joinCRLF (pairs.map (fun p => p.1 ++ headerSep ++ p.2)) ++
          CR :: LF :: CR :: LF :: [])))).length
      Request.empty =
      (ParseResult.success, ⟨m, u, v, emplaceAll pairs []⟩) := by
  set lines := pairs.map (fun p => p.1 ++ headerSep ++ p.2) with hlinesdef
  have hl : ∀ l ∈ lines, l ≠ [] ∧ ∀ c ∈ l, c ≠ CR ∧ c ≠ LF := by
    intro l hlmem
    obtain ⟨p, hpmem, rfl⟩ := List.mem_map.mp hlmem
    constructor
    · simp [headerSep]
    · intro c hc
      rcases List.mem_append.mp hc with hc1 | hc2
      · rcases List.mem_append.mp hc1 with hck | hcs
        · exact (hkeys p hpmem).2.1 c hck
        · simp [headerSep] at hcs
          rcases hcs with rfl | rfl <;> exact ⟨by decide, by decide⟩
      · exact (hkeys p hpmem).2.2 c hc2
  have hlne : lines ≠ [] := by
    rw [hlinesdef]
    simpa using hp
  rw [parse_eq_full,
    parseList_request_line m u v _ hm hm32 hmc hu humax huc hv hvmax hvc,
    parseList_headers_block lines [] [] ⟨m, u, v, []⟩ hl hlne,
    List.nil_append]
  have hsplit : string_split (joinCRLF lines) = lines :=
    string_split_joinCRLF lines hlne (fun l hlm c hc => ((hl l hlm).2 c hc).1)
  have hgo := splitHeadersGo_good pairs (⟨m, u, v, []⟩ : Request)
    (fun p hp2 => (hkeys p hp2).1)
  unfold parseFinish
  rw [show split_headers (joinCRLF lines) (⟨m, u, v, []⟩ : Request) =
      splitHeadersGo lines (⟨m, u, v, []⟩ : Request) from by
    rw [split_headers, hsplit], hgo]

/-- C1, counterexample: the claim allows ZERO header lines, but the request
`"A B C\r\n\r\n"` — method `A`, target `B`, version `C`, no header lines,
terminating blank line — is rejected with `invalid_headers` instead of
succeeding: the blank-line lookahead needs four bytes `CR LF CR LF` beyond
the current position, so the final `CR LF` is treated as an ordinary line
break, and the post-pass split of the accumulated text `"\r\n"` yields an
empty line with no `": "` separator. -/
theorem parse_zero_headers_rejected :
    parse ['A', ' ', 'B', ' ', 'C', '\r', '\n', '\r', '\n'] 9 Request.empty =
      (ParseResult.invalid_headers, ⟨['A'], ['B'], ['C'], []⟩) := by
  have h : (['A', ' ', 'B', ' ', 'C', '\r', '\n', '\r', '\n']).length = 9 := by decide
  rw [← h, parse_eq_full]
  decide

/-- C1 (amended): for every input buffer of the form METHOD SP TARGET SP
VERSION CRLF followed by ONE OR MORE header lines `KEY ": " VALUE` CRLF and
a final terminating CRLF — where the tokens are non-empty, within their
limits (32/1024/32) and free of space/CR/LF, no KEY or VALUE contains CR or
LF, no KEY contains the two-byte separator `": "`, and the KEYs are pairwise
distinct — `parse` returns success, the record's method, url and version
equal METHOD, TARGET and VERSION byte-for-byte, and its header map is
exactly the KEY→VALUE pairs of the input. -/
theorem parse_valid_request_exact (m u v : List Char)
    (pairs : List (List Char × List Char))
    (hm : m ≠ []) (hm32 : m.length ≤ max_method_len)
    (hmc : ∀ c ∈ m, c ≠ SPACE ∧ c ≠ CR ∧ c ≠ LF)
    (hu : u ≠ []) (humax : u.length ≤ max_url_len)
    (huc : ∀ c ∈ u, c ≠ SPACE ∧ c ≠ CR ∧ c ≠ LF)
    (hv : v ≠ []) (hvmax : v.length ≤ max_version_len)
    (hvc : ∀ c ∈ v, c ≠ SPACE ∧ c ≠ CR ∧ c ≠ LF)
    (hp : pairs ≠ [])
    (hkeys : ∀ p ∈ pairs, findSub headerSep p.1 = none ∧
      (∀ c ∈ p.1, c ≠ CR ∧ c ≠ LF) ∧ (∀ c ∈ p.2, c ≠ CR ∧ c ≠ LF))
    (hdist : (pairs.map Prod.fst).Pairwise (fun a b => a ≠ b)) :
    parse
      (m ++ SPACE :: (u ++ SPACE :: (v ++ CR :: LF ::
        (joinCRLF (pairs.map (fun p => p.1 ++ headerSep ++ p.2)) ++
          CR :: LF :: CR :: LF :: []))))
      (m ++ SPACE :: (u ++ SPACE :: (v ++ CR :: LF ::
        (joinCRLF (pairs.map (fun p => p.1 ++ headerSep ++ p.2)) ++
          CR :: LF :: CR :: LF :: [])))).length
      Request.empty =
      (ParseResult.success, ⟨m, u, v, pairs⟩) := by
  rw [parse_valid_request_core m u v pairs hm hm32 hmc hu humax huc hv hvmax
      (fun c hc => (hvc c hc).2.1) hp hkeys,
    show emplaceAll pairs ([] : List (List Char × List Char)) = pairs from by
      simpa using emplaceAll_distinct pairs [] (fun p _ => rfl) hdist]

/-- C1 witness: the spec's end-to-end example
`"GET /x HTTP/1.1\r\nHost: example.com\r\n\r\n"`. -/
theorem parse_valid_request_exact_witness :
    parse
      (['G', 'E', 'T'] ++ SPACE :: (['/', 'x'] ++ SPACE :: (['H', 'T', 'T', 'P', '/', '1', '.', '1'] ++
        CR :: LF ::
        (joinCRLF ([(['H', 'o', 's', 't'], ['e', 'x', 'a', 'm', 'p', 'l', 'e', '.', 'c', 'o', 'm'])].map
          (fun p => p.1 ++ headerSep ++ p.2)) ++
          CR :: LF :: CR :: LF :: []))))
      (['G', 'E', 'T'] ++ SPACE :: (['/', 'x'] ++ SPACE :: (['H', 'T', 'T', 'P', '/', '1', '.', '1'] ++
        CR :: LF ::
        (joinCRLF ([(['H', 'o', 's', 't'], ['e', 'x', 'a', 'm', 'p', 'l', 'e', '.', 'c', 'o', 'm'])].map
          (fun p => p.1 ++ headerSep ++ p.2)) ++
          CR :: LF :: CR :: LF :: [])))).length
      Request.empty =
      (ParseResult.success,
        ⟨['G', 'E', 'T'], ['/', 'x'], ['H', 'T', 'T', 'P', '/', '1', '.', '1'],
          [(['H', 'o', 's', 't'], ['e', 'x', 'a', 'm', 'p', 'l', 'e', '.', 'c', 'o', 'm'])]⟩) :=
  parse_valid_request_exact ['G', 'E', 'T'] ['/', 'x'] ['H', 'T', 'T', 'P', '/', '1', '.', '1']
    [(['H', 'o', 's', 't'], ['e', 'x', 'a', 'm', 'p', 'l', 'e', '.', 'c', 'o', 'm'])]
    (by decide) (by decide) (by decide) (by decide) (by decide) (by decide)
    (by decide) (by decide) (by decide) (by decide) (by decide) (by decide)

/-- C8: for inputs whose header block repeats a key, a successful parse
keeps the value of the FIRST occurrence: the resulting map's lookup agrees
with `List.lookup` on the input pairs (which returns the first match), so a
later occurrence never overwrites an earlier one (insert-if-absent). -/
theorem parse_duplicate_key_first_wins (m u v : List Char)
    (pairs : List (List Char × List Char)) (key : List Char)
    (hm : m ≠ []) (hm32 : m.length ≤ max_method_len)
    (hmc : ∀ c ∈ m, c ≠ SPACE ∧ c ≠ CR ∧ c ≠ LF)
    (hu : u ≠ []) (humax : u.length ≤ max_url_len)
    (huc : ∀ c ∈ u, c ≠ SPACE ∧ c ≠ CR ∧ c ≠ LF)
    (hv : v ≠ []) (hvmax : v.length ≤ max_version_len)
    (hvc : ∀ c ∈ v, c ≠ CR)
    (hp : pairs ≠ [])
    (hkeys : ∀ p ∈ pairs, findSub headerSep p.1 = none ∧
      (∀ c ∈ p.1, c ≠ CR ∧ c ≠ LF) ∧ (∀ c ∈ p.2, c ≠ CR ∧ c ≠ LF)) :
    (parse
      (m ++ SPACE :: (u ++ SPACE :: (v ++ CR :: LF ::
        (joinCRLF (pairs.map (fun p => p.1 ++ headerSep ++ p.2)) ++
          CR :: LF :: CR :: LF :: []))))
      (m ++ SPACE :: (u ++ SPACE :: (v ++ CR :: LF ::
        (joinCRLF (pairs.map (fun p => p.1 ++ headerSep ++ p.2)) ++
          CR :: LF :: CR :: LF :: [])))).length
      Request.empty).1 = ParseResult.success ∧
    (parse
      (m ++ SPACE :: (u ++ SPACE :: (v ++ CR :: LF ::
        (joinCRLF (pairs.map (fun p => p.1 ++ headerSep ++ p.2)) ++
          CR :: LF :: CR :: LF :: []))))
      (m ++ SPACE :: (u ++ SPACE :: (v ++ CR :: LF ::
        (joinCRLF (pairs.map (fun p => p.1 ++ headerSep ++ p.2)) ++
          CR :: LF :: CR :: LF :: [])))).length
      Request.empty).2.headers.lookup key = pairs.lookup key := by
  have hcore := parse_valid_request_core m u v pairs hm hm32 hmc hu humax huc
    hv hvmax hvc hp hkeys
  rw [hcore]
  refine ⟨rfl, ?_⟩
  rw [show ((ParseResult.success,
      (⟨m, u, v, emplaceAll pairs []⟩ : Request)).2).headers =
      emplaceAll pairs [] from rfl,
    emplaceAll_lookup pairs [] key,
    show (([] : List (List Char × List Char)).lookup key) = none from rfl,
    Option.none_or]

/-- C8 witness: two `Dup` headers; the map keeps the first value `1`. -/
theorem parse_duplicate_key_first_wins_witness :
    (parse
      (['G', 'E', 'T'] ++ SPACE :: (['/', 'x'] ++ SPACE :: (['H', 'T', 'T', 'P', '/', '1', '.', '1'] ++
        CR :: LF ::
        (joinCRLF ([(['D', 'u', 'p'], ['1']), (['D', 'u', 'p'], ['2'])].map
          (fun p => p.1 ++ headerSep ++ p.2)) ++
          CR :: LF :: CR :: LF :: []))))
      (['G', 'E', 'T'] ++ SPACE :: (['/', 'x'] ++ SPACE :: (['H', 'T', 'T', 'P', '/', '1', '.', '1'] ++
        CR :: LF ::
        (joinCRLF ([(['D', 'u', 'p'], ['1']), (['D', 'u', 'p'], ['2'])].map
          (fun p => p.1 ++ headerSep ++ p.2)) ++
          CR :: LF :: CR :: LF :: [])))).length
      Request.empty).1 = ParseResult.success ∧
    (parse
      (['G', 'E', 'T'] ++ SPACE :: (['/', 'x'] ++ SPACE :: (['H', 'T', 'T', 'P', '/', '1', '.', '1'] ++
        CR :: LF ::
        (joinCRLF ([(['D', 'u', 'p'], ['1']), (['D', 'u', 'p'], ['2'])].map
          (fun p => p.1 ++ headerSep ++ p.2)) ++
          CR :: LF :: CR :: LF :: []))))
      (['G', 'E', 'T'] ++ SPACE :: (['/', 'x'] ++ SPACE :: (['H', 'T', 'T', 'P', '/', '1', '.', '1'] ++
        CR :: LF ::
        (joinCRLF ([(['D', 'u', 'p'], ['1']), (['D', 'u', 'p'], ['2'])].map
          (fun p => p.1 ++ headerSep ++ p.2)) ++
          CR :: LF :: CR :: LF :: [])))).length
      Request.empty).2.headers.lookup ['D', 'u', 'p'] =
      [(['D', 'u', 'p'], ['1']), (['D', 'u', 'p'], ['2'])].lookup
        ['D', 'u', 'p'] :=
  parse_duplicate_key_first_wins ['G', 'E', 'T'] ['/', 'x'] ['H', 'T', 'T', 'P', '/', '1', '.', '1']
    [(['D', 'u', 'p'], ['1']), (['D', 'u', 'p'], ['2'])] ['D', 'u', 'p']
    (by decide) (by decide) (by decide) (by decide) (by decide) (by decide)
    (by decide) (by decide) (by decide) (by decide) (by decide)

/-- C4: a header block containing at least one line without the two-byte
separator `": "` makes the whole parse fail with `invalid_headers`, no
matter where the malformed line sits among well-formed ones. -/
theorem parse_malformed_header_fails (m u v : List Char)
    (lines : List (List Char))
    (hm : m ≠ []) (hm32 : m.length ≤ max_method_len)
    (hmc : ∀ c ∈ m, c ≠ SPACE ∧ c ≠ CR ∧ c ≠ LF)
    (hu : u ≠ []) (humax : u.length ≤ max_url_len)
    (huc : ∀ c ∈ u, c ≠ SPACE ∧ c ≠ CR ∧ c ≠ LF)
    (hv : v ≠ []) (hvmax : v.length ≤ max_version_len)
    (hvc : ∀ c ∈ v, c ≠ CR)
    (hlines : ∀ l ∈ lines, l ≠ [] ∧ ∀ c ∈ l, c ≠ CR ∧ c ≠ LF)
    (hne : lines ≠ [])
    (hbad : ∃ l ∈ lines, findSub headerSep l = none) :
    (parse
      (m ++ SPACE :: (u ++ SPACE :: (v ++ CR :: LF ::
        (joinCRLF lines ++ CR :: LF :: CR :: LF :: []))))
      (m ++ SPACE :: (u ++ SPACE :: (v ++ CR :: LF ::
        (joinCRLF lines ++ CR :: LF :: CR :: LF :: [])))).length
      Request.empty).1 = ParseResult.invalid_headers := by
  rw [parse_eq_full,
    parseList_request_line m u v _ hm hm32 hmc hu humax huc hv hvmax hvc,
    parseList_headers_block lines [] [] ⟨m, u, v, []⟩ hlines hne,
    List.nil_append]
  have hsplit := string_split_joinCRLF lines hne
    (fun l hlm c hc => ((hlines l hlm).2 c hc).1)
  have hbadgo : (splitHeadersGo lines (⟨m, u, v, []⟩ : Request)).1 = false :=
    splitHeadersGo_bad lines _ hbad
  unfold parseFinish
  rw [show split_headers (joinCRLF lines) (⟨m, u, v, []⟩ : Request) =
      splitHeadersGo lines (⟨m, u, v, []⟩ : Request) from by
    rw [split_headers, hsplit]]
  cases hgo : splitHeadersGo lines (⟨m, u, v, []⟩ : Request) with
  | mk b r =>
    rw [hgo] at hbadgo
    simp only at hbadgo
    subst hbadgo
    rfl

/-- C4 witness: the spec's example — a valid `Host` line followed by the
separator-less line `X-Bad-Header`. -/
theorem parse_malformed_header_fails_witness :
    (parse
      (['G', 'E', 'T'] ++ SPACE :: (['/', 'x'] ++ SPACE :: (['H', 'T', 'T', 'P', '/', '1', '.', '1'] ++
        CR :: LF ::
        (joinCRLF [['H', 'o', 's', 't', ':', ' ', 'a'], ['X', '-', 'B', 'a', 'd', '-', 'H', 'e', 'a', 'd', 'e', 'r']] ++
          CR :: LF :: CR :: LF :: []))))
      (['G', 'E', 'T'] ++ SPACE :: (['/', 'x'] ++ SPACE :: (['H', 'T', 'T', 'P', '/', '1', '.', '1'] ++
        CR :: LF ::
        (joinCRLF [['H', 'o', 's', 't', ':', ' ', 'a'], ['X', '-', 'B', 'a', 'd', '-', 'H', 'e', 'a', 'd', 'e', 'r']] ++
          CR :: LF :: CR :: LF :: [])))).length
      Request.empty).1 = ParseResult.invalid_headers :=
  parse_malformed_header_fails ['G', 'E', 'T'] ['/', 'x'] ['H', 'T', 'T', 'P', '/', '1', '.', '1']
    [['H', 'o', 's', 't', ':', ' ', 'a'], ['X', '-', 'B', 'a', 'd', '-', 'H', 'e', 'a', 'd', 'e', 'r']]
    (by decide) (by decide) (by decide) (by decide) (by decide) (by decide)
    (by decide) (by decide) (by decide) (by decide) (by decide) (by decide)

/-- C5: the token limits are exclusive triggers on the (limit+1)-th byte: a
method of exactly 32 bytes followed by a space passes the method state
(parsing continues in the url state with the method stored), while a 33rd
method byte before the first space yields `method_too_long`; a 1025th url
byte before the second space yields `url_too_long`; a 33rd version byte
before the terminating CR yields `version_too_long`. -/
theorem parse_limit_boundaries (m u v : List Char) (cm cu cv : Char)
    (rest1 rest2 rest3 rest4 : List Char)
    (hm32 : m.length = max_method_len)
    (hmc : ∀ c ∈ m, c ≠ SPACE ∧ c ≠ CR ∧ c ≠ LF)
    (hcm : cm ≠ SPACE ∧ cm ≠ CR ∧ cm ≠ LF)
    (humax : u.length = max_url_len)
    (huc : ∀ c ∈ u, c ≠ SPACE ∧ c ≠ CR ∧ c ≠ LF)
    (hcu : cu ≠ SPACE ∧ cu ≠ CR ∧ cu ≠ LF)
    (hvmax : v.length = max_version_len)
    (hvc : ∀ c ∈ v, c ≠ CR)
    (hcv : cv ≠ CR) :
    parse (m ++ SPACE :: rest1) (m ++ SPACE :: rest1).length Request.empty =
      parseList rest1 State.url [] ⟨m, [], [], []⟩ ∧
    (parse (m ++ cm :: rest2) (m ++ cm :: rest2).length Request.empty).1 =
      ParseResult.method_too_long ∧
    (parse (m ++ SPACE :: (u ++ cu :: rest3))
      (m ++ SPACE :: (u ++ cu :: rest3)).length Request.empty).1 =
      ParseResult.url_too_long ∧
    (parse (m ++ SPACE :: (u ++ SPACE :: (v ++ cv :: rest4)))
      (m ++ SPACE :: (u ++ SPACE :: (v ++ cv :: rest4))).length
      Request.empty).1 = ParseResult.version_too_long := by
  have hm : m ≠ [] := by
    intro h
    rw [h] at hm32
    exact absurd hm32 (by decide)
  have hu : u ≠ [] := by
    intro h
    rw [h] at humax
    exact absurd humax (by decide)
  refine ⟨?_, ?_, ?_, ?_⟩
  · rw [parse_eq_full,
      parseList_consume_method m _ [] Request.empty hmc
        (by simp [Request.empty]
            omega),
      req0_method, parseList_method_space _ [] _ hm]
  · rw [parse_eq_full,
      parseList_consume_method m _ [] Request.empty hmc
        (by simp [Request.empty]
            omega),
      req0_method, parseList_cons_method, if_neg hcm.1,
      if_neg (by tauto : ¬ (cm = CR ∨ cm = LF)),
      if_pos (hm32 :
        (⟨m, [], [], []⟩ : Request).method.length = max_method_len)]
  · rw [parse_eq_full,
      parseList_consume_method m _ [] Request.empty hmc
        (by simp [Request.empty]
            omega),
      req0_method, parseList_method_space _ [] _ hm,
      parseList_consume_url u _ [] _ huc
        (by simp
            omega),
      req1_url, parseList_cons_url, if_neg hcu.1,
      if_neg (by tauto : ¬ (cu = CR ∨ cu = LF)),
      if_pos (humax : (⟨m, u, [], []⟩ : Request).url.length = max_url_len)]
  · rw [parse_eq_full,
      parseList_start_tokens m u _ hm (le_of_eq hm32) hmc hu
        (le_of_eq humax) huc,
      parseList_consume_version v _ [] _ hvc
        (by simp
            omega),
      req2_version]
    cases rest4 with
    | nil =>
      rw [parseList_version_one, if_neg hcv,
        if_pos (hvmax :
          (⟨m, u, v, []⟩ : Request).version.length = max_version_len)]
    | cons d t =>
      rw [parseList_version_two, if_neg hcv,
        if_pos (hvmax :
          (⟨m, u, v, []⟩ : Request).version.length = max_version_len)]

/-- C5 witness: 32 `a`s pass the method state; a 33rd `a`, a 1025th url
byte and a 33rd version byte trigger the three `*_too_long` results. -/
theorem parse_limit_boundaries_witness :
    parse (List.replicate 32 'a' ++ SPACE :: [])
      (List.replicate 32 'a' ++ SPACE :: []).length Request.empty =
      parseList [] State.url [] ⟨List.replicate 32 'a', [], [], []⟩ ∧
    (parse (List.replicate 32 'a' ++ 'a' :: [])
      (List.replicate 32 'a' ++ 'a' :: []).length Request.empty).1 =
      ParseResult.method_too_long ∧
    (parse (List.replicate 32 'a' ++ SPACE :: (List.replicate 1024 'b' ++ 'b' :: []))
      (List.replicate 32 'a' ++ SPACE ::
        (List.replicate 1024 'b' ++ 'b' :: [])).length Request.empty).1 =
      ParseResult.url_too_long ∧
    (parse (List.replicate 32 'a' ++ SPACE :: (List.replicate 1024 'b' ++
        SPACE :: (List.replicate 32 'c' ++ 'c' :: [])))
      (List.replicate 32 'a' ++ SPACE :: (List.replicate 1024 'b' ++
        SPACE :: (List.replicate 32 'c' ++ 'c' :: []))).length
      Request.empty).1 = ParseResult.version_too_long :=
  parse_limit_boundaries (List.replicate 32 'a') (List.replicate 1024 'b')
    (List.replicate 32 'c') 'a' 'b' 'c' [] [] [] []
    (by rw [List.length_replicate]; rfl)
    (fun c hc => by rw [List.eq_of_mem_replicate hc]; decide)
    (by decide)
    (by rw [List.length_replicate]; rfl)
    (fun c hc => by rw [List.eq_of_mem_replicate hc]; decide)
    (by decide)
    (by rw [List.length_replicate]; rfl)
    (fun c hc => by rw [List.eq_of_mem_replicate hc]; decide)
    (by decide)

/-- C6, counterexample: a lone LF right after the version, exactly where the
claim says parse must fail with `invalid_crlf`, is instead silently absorbed
into the version token and the parse SUCCEEDS with `version = "HTTP/1.1\n"`:
the version state appends every non-CR byte, LF included. -/
theorem parse_lone_lf_after_version_accepted :
    parse ['G', 'E', 'T', ' ', '/', 'x', ' ', 'H', 'T', 'T', 'P', '/', '1', '.', '1', '\n', '\r', '\n', 'H', 'o', 's', 't', ':', ' ', 'a', '\r', '\n', '\r', '\n']
      ['G', 'E', 'T', ' ', '/', 'x', ' ', 'H', 'T', 'T', 'P', '/', '1', '.', '1', '\n', '\r', '\n', 'H', 'o', 's', 't', ':', ' ', 'a', '\r', '\n', '\r', '\n'].length Request.empty =
      (ParseResult.success,
        ⟨['G', 'E', 'T'], ['/', 'x'], ['H', 'T', 'T', 'P', '/', '1', '.', '1', '\n'],
          [(['H', 'o', 's', 't'], ['a'])]⟩) := by
  have hcore := parse_valid_request_core ['G', 'E', 'T'] ['/', 'x']
    ['H', 'T', 'T', 'P', '/', '1', '.', '1', '\n'] [(['H', 'o', 's', 't'], ['a'])]
    (by decide) (by decide) (by decide) (by decide) (by decide) (by decide)
    (by decide) (by decide) (by decide) (by decide) (by decide)
  rw [show joinCRLF ([(['H', 'o', 's', 't'], ['a'])].map
      (fun p => p.1 ++ headerSep ++ p.2)) =
      ['H', 'o', 's', 't', ':', ' ', 'a'] from rfl] at hcore
  rw [show (['G', 'E', 'T'] ++ SPACE :: (['/', 'x'] ++ SPACE ::
      (['H', 'T', 'T', 'P', '/', '1', '.', '1', '\n'] ++ CR :: LF ::
        (['H', 'o', 's', 't', ':', ' ', 'a'] ++
          CR :: LF :: CR :: LF :: [])))) =
      ['G', 'E', 'T', ' ', '/', 'x', ' ', 'H', 'T', 'T', 'P', '/', '1', '.', '1', '\n', '\r', '\n', 'H', 'o', 's', 't', ':', ' ', 'a', '\r', '\n', '\r', '\n'] from rfl] at hcore
  rw [hcore]
  rfl

/-- C6 (amended): a lone LF in the version state is not a terminator and is
not rejected — it is appended to the version buffer and parsing continues;
`invalid_crlf` arises only when a CR is followed by a byte other than LF;
a lone LF inside the header block does yield `invalid_headers`. -/
theorem parse_lone_lf_behavior (m u v t : List Char) (c2 : Char)
    (rest1 rest2 rest3 : List Char)
    (hm : m ≠ []) (hm32 : m.length ≤ max_method_len)
    (hmc : ∀ c ∈ m, c ≠ SPACE ∧ c ≠ CR ∧ c ≠ LF)
    (hu : u ≠ []) (humax : u.length ≤ max_url_len)
    (huc : ∀ c ∈ u, c ≠ SPACE ∧ c ≠ CR ∧ c ≠ LF)
    (hv : v ≠ []) (hvlt : v.length < max_version_len)
    (hvc : ∀ c ∈ v, c ≠ CR)
    (hc2 : c2 ≠ LF)
    (ht : ∀ c ∈ t, c ≠ CR ∧ c ≠ LF) :
    parse (m ++ SPACE :: (u ++ SPACE :: (v ++ LF :: rest1)))
      (m ++ SPACE :: (u ++ SPACE :: (v ++ LF :: rest1))).length
      Request.empty =
      parseList rest1 State.version [] ⟨m, u, v ++ [LF], []⟩ ∧
    (parse (m ++ SPACE :: (u ++ SPACE :: (v ++ CR :: c2 :: rest2)))
      (m ++ SPACE :: (u ++ SPACE :: (v ++ CR :: c2 :: rest2))).length
      Request.empty).1 = ParseResult.invalid_crlf ∧
    (parse (m ++ SPACE :: (u ++ SPACE :: (v ++ CR :: LF :: (t ++ LF :: rest3))))
      (m ++ SPACE :: (u ++ SPACE ::
        (v ++ CR :: LF :: (t ++ LF :: rest3)))).length
      Request.empty).1 = ParseResult.invalid_headers := by
  refine ⟨?_, ?_, ?_⟩
  · rw [parse_eq_full, parseList_start_tokens m u _ hm hm32 hmc hu humax huc,
      parseList_consume_version v _ [] _ hvc
        (by simp
            omega),
      req2_version,
      parseList_version_step LF rest1 [] _ (by decide)
        (by simp
            omega)]
  · rw [parse_eq_full, parseList_start_tokens m u _ hm hm32 hmc hu humax huc,
      parseList_consume_version v _ [] _ hvc
        (by simp
            omega),
      req2_version, parseList_version_two, if_pos rfl,
      if_neg (hv : ¬ (⟨m, u, v, []⟩ : Request).version = []),
      if_pos hc2]
  · rw [parse_eq_full, parseList_start_tokens m u _ hm hm32 hmc hu humax huc,
      parseList_consume_version v _ [] _ hvc
        (by simp
            omega),
      req2_version,
      parseList_version_crlf _ [] _
        (hv : ¬ (⟨m, u, v, []⟩ : Request).version = []),
      parseList_consume_headers t _ [] _ ht,
      parseList_cons_headers, if_neg (by decide : ¬ LF = CR), if_pos rfl]

/-- C6 witness: concrete inputs for the three behaviors. -/
theorem parse_lone_lf_behavior_witness :
    parse (['G', 'E', 'T'] ++ SPACE :: (['/', 'x'] ++ SPACE ::
        (['H', 'T', 'T', 'P', '/', '1', '.', '1'] ++ LF :: [])))
      (['G', 'E', 'T'] ++ SPACE :: (['/', 'x'] ++ SPACE ::
        (['H', 'T', 'T', 'P', '/', '1', '.', '1'] ++ LF :: []))).length
      Request.empty =
      parseList [] State.version []
        ⟨['G', 'E', 'T'], ['/', 'x'], ['H', 'T', 'T', 'P', '/', '1', '.', '1'] ++ [LF], []⟩ ∧
    (parse (['G', 'E', 'T'] ++ SPACE :: (['/', 'x'] ++ SPACE ::
        (['H', 'T', 'T', 'P', '/', '1', '.', '1'] ++ CR :: 'X' :: [])))
      (['G', 'E', 'T'] ++ SPACE :: (['/', 'x'] ++ SPACE ::
        (['H', 'T', 'T', 'P', '/', '1', '.', '1'] ++ CR :: 'X' :: []))).length
      Request.empty).1 = ParseResult.invalid_crlf ∧
    (parse (['G', 'E', 'T'] ++ SPACE :: (['/', 'x'] ++ SPACE ::
        (['H', 'T', 'T', 'P', '/', '1', '.', '1'] ++ CR :: LF :: (['H', 'o', 's', 't', ':', ' ', 'a'] ++ LF :: []))))
      (['G', 'E', 'T'] ++ SPACE :: (['/', 'x'] ++ SPACE ::
        (['H', 'T', 'T', 'P', '/', '1', '.', '1'] ++ CR :: LF ::
          (['H', 'o', 's', 't', ':', ' ', 'a'] ++ LF :: [])))).length
      Request.empty).1 = ParseResult.invalid_headers :=
  parse_lone_lf_behavior ['G', 'E', 'T'] ['/', 'x'] ['H', 'T', 'T', 'P', '/', '1', '.', '1']
    ['H', 'o', 's', 't', ':', ' ', 'a'] 'X' [] [] []
    (by decide) (by decide) (by decide) (by decide) (by decide) (by decide)
    (by decide) (by decide) (by decide) (by decide) (by decide)

/-- C2: the parser is a total function of the first `len` bytes only: for
any two buffers of length at least `len` that agree byte-for-byte below
`len`, `parse` returns identical (always well-defined) results — in
particular none of the reads, including the look-ahead reads at `i+1`,
`i+2`, `i+3` in the version and headers states, ever inspects an index
`≥ len`. -/
theorem parse_reads_within_len (d1 d2 : List Char) (len : Nat)
    (req : Request) (h1 : len ≤ d1.length) (h2 : len ≤ d2.length)
    (hpre : d1.take len = d2.take len) :
    parse d1 len req = parse d2 len req := by
  rw [parse_eq_parseList, parse_eq_parseList,
    show padTo d1 len = d1.take len from by
      rw [padTo, Nat.sub_eq_zero_of_le h1]
      simp,
    show padTo d2 len = d2.take len from by
      rw [padTo, Nat.sub_eq_zero_of_le h2]
      simp,
    hpre]

/-- C2 witness: two buffers differing only at index 1 are parsed
identically with `len = 1`. -/
theorem parse_reads_within_len_witness :
    parse ['A', 'B'] 1 Request.empty = parse ['A', 'C'] 1 Request.empty :=
  parse_reads_within_len ['A', 'B'] ['A', 'C'] 1 Request.empty
    (by decide) (by decide) (by decide)

/-- C3, counterexample: on the truncated input `"GE"` parse returns an
error (`invalid_headers`), yet the caller-visible record is NOT discarded:
it still holds the partially accumulated method bytes `['G', 'E']`. -/
theorem parse_error_partial_record_kept :
    (parse ['G', 'E'] 2 Request.empty).1 ≠ ParseResult.success ∧
      (parse ['G', 'E'] 2 Request.empty).2 ≠ Request.empty := by
  have h : parse ['G', 'E'] 2 Request.empty =
      (ParseResult.invalid_headers, ⟨['G', 'E'], [], [], []⟩) := by
    have hl : (['G', 'E'] : List Char).length = 2 := rfl
    rw [← hl, parse_eq_full]
    decide
  rw [h]
  exact ⟨by decide, by decide⟩

/-- C3 (amended): on a non-success result the failure is signalled only by
the returned code; the record, mutated in place, may retain partially
accumulated method/url/version bytes and header entries — on input `"GE"`
the result is `invalid_headers` with `method = "GE"` left in the record. -/
theorem parse_error_result_code_only :
    parse ['G', 'E'] 2 Request.empty =
      (ParseResult.invalid_headers, ⟨['G', 'E'], [], [], []⟩) := by
  have hl : (['G', 'E'] : List Char).length = 2 := rfl
  rw [← hl, parse_eq_full]
  decide

/-- C7: whenever `parse` on a fresh record returns success, the resulting
method, url and version are non-empty and at most 32, 1024 and 32 bytes
respectively. -/
theorem parse_success_invariants (data : List Char) (len : Nat)
    (hs : (parse data len Request.empty).1 = ParseResult.success) :
    (parse data len Request.empty).2.method ≠ [] ∧
    (parse data len Request.empty).2.method.length ≤ max_method_len ∧
    (parse data len Request.empty).2.url ≠ [] ∧
    (parse data len Request.empty).2.url.length ≤ max_url_len ∧
    (parse data len Request.empty).2.version ≠ [] ∧
    (parse data len Request.empty).2.version.length ≤ max_version_len := by
  rw [parse_eq_parseList] at hs ⊢
  exact parseList_success_inv (padTo data len) State.method [] Request.empty
    (fun _ => rfl) (fun hx => nomatch hx) (fun hx => nomatch hx)
    (fun hx => nomatch hx) (by decide) (by decide) (by decide) hs

/-- C7 witness: the spec's end-to-end example succeeds, so its record
satisfies the invariants. -/
theorem parse_success_invariants_witness :
    (parse ['G', 'E', 'T', ' ', '/', 'x', ' ', 'H', 'T', 'T', 'P', '/', '1', '.', '1', '\r', '\n', 'H', 'o', 's', 't', ':', ' ', 'a', '\r', '\n', '\r', '\n']
      ['G', 'E', 'T', ' ', '/', 'x', ' ', 'H', 'T', 'T', 'P', '/', '1', '.', '1', '\r', '\n', 'H', 'o', 's', 't', ':', ' ', 'a', '\r', '\n', '\r', '\n'].length
      Request.empty).2.method ≠ [] ∧
    (parse ['G', 'E', 'T', ' ', '/', 'x', ' ', 'H', 'T', 'T', 'P', '/', '1', '.', '1', '\r', '\n', 'H', 'o', 's', 't', ':', ' ', 'a', '\r', '\n', '\r', '\n']
      ['G', 'E', 'T', ' ', '/', 'x', ' ', 'H', 'T', 'T', 'P', '/', '1', '.', '1', '\r', '\n', 'H', 'o', 's', 't', ':', ' ', 'a', '\r', '\n', '\r', '\n'].length
      Request.empty).2.method.length ≤ max_method_len ∧
    (parse ['G', 'E', 'T', ' ', '/', 'x', ' ', 'H', 'T', 'T', 'P', '/', '1', '.', '1', '\r', '\n', 'H', 'o', 's', 't', ':', ' ', 'a', '\r', '\n', '\r', '\n']
      ['G', 'E', 'T', ' ', '/', 'x', ' ', 'H', 'T', 'T', 'P', '/', '1', '.', '1', '\r', '\n', 'H', 'o', 's', 't', ':', ' ', 'a', '\r', '\n', '\r', '\n'].length
      Request.empty).2.url ≠ [] ∧
    (parse ['G', 'E', 'T', ' ', '/', 'x', ' ', 'H', 'T', 'T', 'P', '/', '1', '.', '1', '\r', '\n', 'H', 'o', 's', 't', ':', ' ', 'a', '\r', '\n', '\r', '\n']
      ['G', 'E', 'T', ' ', '/', 'x', ' ', 'H', 'T', 'T', 'P', '/', '1', '.', '1', '\r', '\n', 'H', 'o', 's', 't', ':', ' ', 'a', '\r', '\n', '\r', '\n'].length
      Request.empty).2.url.length ≤ max_url_len ∧
    (parse ['G', 'E', 'T', ' ', '/', 'x', ' ', 'H', 'T', 'T', 'P', '/', '1', '.', '1', '\r', '\n', 'H', 'o', 's', 't', ':', ' ', 'a', '\r', '\n', '\r', '\n']
      ['G', 'E', 'T', ' ', '/', 'x', ' ', 'H', 'T', 'T', 'P', '/', '1', '.', '1', '\r', '\n', 'H', 'o', 's', 't', ':', ' ', 'a', '\r', '\n', '\r', '\n'].length
      Request.empty).2.version ≠ [] ∧
    (parse ['G', 'E', 'T', ' ', '/', 'x', ' ', 'H', 'T', 'T', 'P', '/', '1', '.', '1', '\r', '\n', 'H', 'o', 's', 't', ':', ' ', 'a', '\r', '\n', '\r', '\n']
      ['G', 'E', 'T', ' ', '/', 'x', ' ', 'H', 'T', 'T', 'P', '/', '1', '.', '1', '\r', '\n', 'H', 'o', 's', 't', ':', ' ', 'a', '\r', '\n', '\r', '\n'].length
      Request.empty).2.version.length ≤ max_version_len :=
  parse_success_invariants
    ['G', 'E', 'T', ' ', '/', 'x', ' ', 'H', 'T', 'T', 'P', '/', '1', '.', '1', '\r', '\n', 'H', 'o', 's', 't', ':', ' ', 'a', '\r', '\n', '\r', '\n']
    ['G', 'E', 'T', ' ', '/', 'x', ' ', 'H', 'T', 'T', 'P', '/', '1', '.', '1', '\r', '\n', 'H', 'o', 's', 't', ':', ' ', 'a', '\r', '\n', '\r', '\n'].length
    (by
      have hcore := parse_valid_request_core ['G', 'E', 'T'] ['/', 'x']
        ['H', 'T', 'T', 'P', '/', '1', '.', '1']
        [(['H', 'o', 's', 't'], ['a'])]
        (by decide) (by decide) (by decide) (by decide) (by decide)
        (by decide) (by decide) (by decide) (by decide) (by decide)
        (by decide)
      rw [show joinCRLF ([(['H', 'o', 's', 't'], ['a'])].map
          (fun p => p.1 ++ headerSep ++ p.2)) =
          ['H', 'o', 's', 't', ':', ' ', 'a'] from rfl] at hcore
      rw [show (['G', 'E', 'T'] ++ SPACE :: (['/', 'x'] ++ SPACE ::
          (['H', 'T', 'T', 'P', '/', '1', '.', '1'] ++ CR :: LF ::
            (['H', 'o', 's', 't', ':', ' ', 'a'] ++
              CR :: LF :: CR :: LF :: [])))) =
          ['G', 'E', 'T', ' ', '/', 'x', ' ', 'H', 'T', 'T', 'P', '/', '1', '.', '1', '\r', '\n', 'H', 'o', 's', 't', ':', ' ', 'a', '\r', '\n', '\r', '\n'] from rfl] at hcore
      rw [hcore])

/-- C9: `invalid_version` is defined in the `ParseResult` enumeration but is
unreachable: for every buffer, length and starting record, `parse` never
returns it — the state machine checks the version only for length and CRLF
framing, never for content. -/
theorem parse_never_invalid_version (data : List Char) (len : Nat)
    (req : Request) :
    (parse data len req).1 ≠ ParseResult.invalid_version := by
  rw [parse_eq_parseList]
  exact parseList_ne_invalid_version _ _ _ _

/-- C10: the empty input (length 0) is rejected with `invalid_headers` (not
success and not `invalid_format`): the byte loop never runs and the
post-pass split of the empty header text yields one empty line without the
`": "` separator. -/
theorem parse_empty_input (data : List Char) (req : Request) :
    parse data 0 req = (ParseResult.invalid_headers, req) := by
  rw [parse_eq_parseList,
    show padTo data 0 = [] from by simp [padTo],
    parseList_nil, parseFinish_nil]

end HttpParse
